import Mathlib

/-!
Verification of the weighted-graph / minimum-spanning-tree module
(`graph.py`) of the repository.  The module builds a graph from a distance
matrix (a pandas dataframe) and computes MSTs via Kruskal's and Prim's
algorithms.

Modelling choices, faithful to the source:
* a vertex label is a natural number (an order-embedding of the Python
  string labels: tuple comparison on labels is the order on `ℕ`);
* a weight is a rational number (exact embedding of the float literals
  appearing in the tests and spec);
* an edge is the Python tuple `(weight, origin, destination)`, compared
  lexicographically exactly as Python compares tuples;
* the distance dataframe is a function `M : ℕ → ℕ → ℚ` (row → column →
  value) together with its label list (same list for rows and columns of a
  square frame; construction is also stated for separate row/column lists);
* `pandas.groupby(level=0)` iterates groups in sorted key order, so an
  adjacency list is built over the *sorted* row labels;
* a `heapq` heap is observed only through `heappop`, which returns the
  remaining elements in nondecreasing tuple order, so a heap is modelled as
  the sorted list of its elements and a pop as taking the head; popping an
  empty heap raises `IndexError`;
* fallible code returns `Except PyErr`; a Python dict that is only read and
  written pointwise is a total function `ℕ → ℕ` updated with
  `Function.update` (the code only ever looks up keys it has inserted);
* the recursive `__findset` is given explicit fuel; exceeding it is Python's
  `RecursionError`.
-/

/-- Errors a run of the Python module can surface to the caller, together
with the typed errors the specification document postulates
(`DisconnectedGraph`, `MalformedInput`); the code never defines nor raises
the latter two. -/
inductive PyErr where
  | indexError
  | recursionError
  | disconnectedGraph
  | malformedInput
deriving DecidableEq, Repr

instance {ε α : Type} [DecidableEq ε] [DecidableEq α] :
    DecidableEq (Except ε α) := fun a b =>
  match a, b with
  | .ok x, .ok y =>
    if h : x = y then .isTrue (by rw [h]) else
      .isFalse (by intro hc; cases hc; exact h rfl)
  | .error x, .error y =>
    if h : x = y then .isTrue (by rw [h]) else
      .isFalse (by intro hc; cases hc; exact h rfl)
  | .ok _, .error _ => .isFalse (by intro hc; cases hc)
  | .error _, .ok _ => .isFalse (by intro hc; cases hc)

/-- A vertex label. -/
abbrev Vertex := ℕ

/-- An edge tuple `(weight, origin, destination)` as stored by `graph.py`. -/
abbrev Edge := ℚ × Vertex × Vertex

/-- Python's lexicographic comparison `≤` on `(weight, origin, destination)`
tuples.  This order drives every `heapq` operation in the module. -/
def edgeLe (a b : Edge) : Prop :=
  a.1 < b.1 ∨ (a.1 = b.1 ∧ (a.2.1 < b.2.1 ∨ (a.2.1 = b.2.1 ∧ a.2.2 ≤ b.2.2)))

instance : DecidableRel edgeLe := fun a b => by
  unfold edgeLe; infer_instance

instance : IsTotal Edge edgeLe := by
  constructor
  intro a b
  rcases lt_trichotomy a.1 b.1 with h | h | h
  · exact Or.inl (Or.inl h)
  · rcases lt_trichotomy a.2.1 b.2.1 with h2 | h2 | h2
    · exact Or.inl (Or.inr ⟨h, Or.inl h2⟩)
    · rcases le_total a.2.2 b.2.2 with h3 | h3
      · exact Or.inl (Or.inr ⟨h, Or.inr ⟨h2, h3⟩⟩)
      · exact Or.inr (Or.inr ⟨h.symm, Or.inr ⟨h2.symm, h3⟩⟩)
    · exact Or.inr (Or.inr ⟨h.symm, Or.inl h2⟩)
  · exact Or.inr (Or.inl h)

instance : IsTrans Edge edgeLe := by
  constructor
  intro a b c hab hbc
  rcases hab with h1 | ⟨e1, h1⟩
  · rcases hbc with h2 | ⟨e2, _⟩
    · exact Or.inl (h1.trans h2)
    · exact Or.inl (e2 ▸ h1)
  · rcases hbc with h2 | ⟨e2, h2⟩
    · exact Or.inl (e1 ▸ h2)
    · refine Or.inr ⟨e1.trans e2, ?_⟩
      rcases h1 with h1 | ⟨f1, h1⟩
      · rcases h2 with h2 | ⟨f2, _⟩
        · exact Or.inl (h1.trans h2)
        · exact Or.inl (f2 ▸ h1)
      · rcases h2 with h2 | ⟨f2, h2⟩
        · exact Or.inl (f1 ▸ h2)
        · exact Or.inr ⟨f1.trans f2, h1.trans h2⟩

instance : IsAntisymm Edge edgeLe := by
  constructor
  intro a b hab hba
  rcases hab with h1 | ⟨e1, h1⟩
  · rcases hba with h2 | ⟨e2, _⟩
    · exact absurd (h1.trans h2) (lt_irrefl _)
    · exact absurd h1 (e2 ▸ lt_irrefl _)
  · rcases hba with h2 | ⟨e2, h2⟩
    · exact absurd h2 (e1 ▸ lt_irrefl _)
    · have hv : a.2.1 = b.2.1 := by
        rcases h1 with h1 | ⟨f1, _⟩
        · rcases h2 with h2 | ⟨f2, _⟩
          · exact absurd (h1.trans h2) (lt_irrefl _)
          · exact f2.symm
        · exact f1
      have hd : a.2.2 = b.2.2 := by
        rcases h1 with h1 | ⟨f1, h1⟩
        · exact absurd (hv ▸ h1) (lt_irrefl _)
        · rcases h2 with h2 | ⟨f2, h2⟩
          · exact absurd (hv ▸ h2) (lt_irrefl _)
          · exact le_antisymm h1 h2
      have : a.2 = b.2 := Prod.ext hv hd
      exact Prod.ext e1 this

/-- `Graph.__init__`: the adjacency list stored under key `v` of
`graph_dict`.  `vertices[vertex].groupby(level=0)` iterates the rows of
column `v` in sorted row-label order, and entries whose value is exactly `0`
are skipped; each kept row `d` contributes the tuple `(M d v, v, d)`. -/
def graph_dict (M : ℕ → ℕ → ℚ) (rows : List ℕ) (v : ℕ) : List Edge :=
  (List.insertionSort (fun a b => a ≤ b) rows).filterMap
    (fun d => if M d v = 0 then none else some (M d v, v, d))

/-- `Graph.vertices()`: the keys of `graph_dict` in insertion order — the
column labels with later duplicates collapsed. -/
def vertices (cols : List ℕ) : List ℕ :=
  cols.dedup

/-- The loop of `Graph.__generate_edges`: for the vertices still to process,
with `i` vertices already processed, emit each vertex's adjacency list,
skipping its first `i` entries when `directed` is false. -/
def genEdgesAux (g : ℕ → List Edge) (directed : Bool) : List ℕ → ℕ → List Edge
  | [], _ => []
  | v :: vs, i =>
    (g v).drop (if directed then 0 else i) ++
      genEdgesAux g directed vs (if directed then i else i + 1)

/-- `Graph.__generate_edges(directed, weights=True)` on a square frame with
label list `labels`. -/
def generate_edges (M : ℕ → ℕ → ℚ) (labels : List ℕ) (directed : Bool) :
    List Edge :=
  genEdgesAux (graph_dict M labels) directed (vertices labels) 0

/-- `Graph.edges()`: directed, unweighted. -/
def edges (M : ℕ → ℕ → ℚ) (labels : List ℕ) : List (Vertex × Vertex) :=
  (generate_edges M labels true).map (fun e => e.2)

/-- `Graph.weighted_edges()`: directed, weighted. -/
def weighted_edges (M : ℕ → ℕ → ℚ) (labels : List ℕ) : List Edge :=
  generate_edges M labels true

/-- `Graph.__findset(parents, vertex)` with explicit recursion fuel.  The
Python function follows parent links until it reaches a root and returns the
root; it performs no assignment, so the (unchanged) `parents` dict is
returned alongside the root to record the state after the call.  `none` is
Python's `RecursionError` on a chain longer than the fuel. -/
def findset (parents : ℕ → ℕ) : ℕ → ℕ → Option (ℕ × (ℕ → ℕ))
  | 0, _ => none
  | f + 1, v =>
    if parents v = v then some (v, parents) else findset parents f (parents v)

/-- The root computed by `__findset`. -/
def findRoot (parents : ℕ → ℕ) (fuel v : ℕ) : Option ℕ :=
  (findset parents fuel v).map (fun p => p.1)

/-- `Graph.__union(parents, ranks, v1, v2)`: resolve both roots, return
unchanged state when they agree, otherwise attach the lower-rank root under
the higher-rank root (ties attach the second under the first) and bump the
surviving root's rank when the ranks were equal. -/
def union (parents ranks : ℕ → ℕ) (fuel v1 v2 : ℕ) :
    Option ((ℕ → ℕ) × (ℕ → ℕ)) :=
  match findRoot parents fuel v1, findRoot parents fuel v2 with
  | some r1, some r2 =>
    if r1 = r2 then some (parents, ranks)
    else
      let p := if ranks r1 < ranks r2 then (r2, r1) else (r1, r2)
      some (Function.update parents p.2 p.1,
        if ranks p.1 = ranks p.2 then
          Function.update ranks p.1 (ranks p.1 + 1)
        else ranks)
  | _, _ => none

/-- The loop of `Graph.kruskal_mst`: while the tree has fewer than
`nv - 1` edges, pop the least remaining edge, resolve both endpoint roots,
and when they differ add the edge and union the roots.  Popping an exhausted
heap is `IndexError`. -/
def kruskalLoop (fuel nv : ℕ) :
    List Edge → List Edge → (ℕ → ℕ) → (ℕ → ℕ) → Except PyErr (List Edge)
  | [], tree, _, _ =>
    if tree.length < nv - 1 then .error .indexError else .ok tree
  | e :: rest, tree, parents, ranks =>
    if tree.length < nv - 1 then
      match findRoot parents fuel e.2.1, findRoot parents fuel e.2.2 with
      | some fv, some tv =>
        if fv ≠ tv then
          match union parents ranks fuel fv tv with
          | some pr => kruskalLoop fuel nv rest (tree ++ [e]) pr.1 pr.2
          | none => .error .recursionError
        else kruskalLoop fuel nv rest tree parents ranks
      | _, _ => .error .recursionError
    else .ok tree

/-- `Graph.kruskal_mst()`: heapify the undirected weighted edges (pops then
arrive in sorted order), initialize every vertex as its own root of rank 0,
and run the loop.  The recursion fuel `n + 1` covers every parent chain that
can arise (chains stay within the `n` vertices). -/
def kruskal_mst (M : ℕ → ℕ → ℚ) (labels : List ℕ) : Except PyErr (List Edge) :=
  kruskalLoop ((vertices labels).length + 1) (vertices labels).length
    (List.insertionSort edgeLe (generate_edges M labels false))
    [] (fun v => v) (fun _ => 0)

/-- `Graph.__smallest_edge(edges, visited, not_visited)`: pop a copy of the
heap until an edge with an endpoint in `visited` and an endpoint in
`not_visited` appears — that is, the first such edge in sorted order.
`none` is the `IndexError` raised by popping the exhausted copy. -/
def smallest_edge (es : List Edge) (visited notVisited : Finset ℕ) :
    Option Edge :=
  es.find? (fun e =>
    decide ((e.2.1 ∈ visited ∨ e.2.2 ∈ visited) ∧
      (e.2.1 ∈ notVisited ∨ e.2.2 ∈ notVisited)))

/-- The loop of `Graph.prim_mst`: while unvisited vertices remain, find the
smallest edge joining the visited and unvisited sides, mark its endpoints
visited, and add it to the tree.  The Python loop needs no fuel; here each
iteration is paid for with one unit of fuel, and every caller supplies more
fuel than `notVisited` has elements, which strictly dominates the number of
iterations (each one removes at least one element of `notVisited`), so the
fuel-exhaustion branch is unreachable. -/
def primLoop (es : List Edge) :
    ℕ → Finset ℕ → Finset ℕ → List Edge → Except PyErr (List Edge)
  | 0, _, _, _ => .error .recursionError
  | fuel + 1, visited, notVisited, tree =>
    if notVisited = ∅ then .ok tree
    else
      match smallest_edge es visited notVisited with
      | none => .error .indexError
      | some e =>
        primLoop es fuel (insert e.2.1 (insert e.2.2 visited))
          ((notVisited.erase e.2.1).erase e.2.2) (tree ++ [e])

/-- `Graph.prim_mst()`: heapify the undirected weighted edges, pop the
globally smallest edge to seed the visited set, and grow the tree with
`__smallest_edge` until every vertex is visited.  Popping an empty heap is
`IndexError`. -/
def prim_mst (M : ℕ → ℕ → ℚ) (labels : List ℕ) : Except PyErr (List Edge) :=
  match List.insertionSort edgeLe (generate_edges M labels false) with
  | [] => .error .indexError
  | e :: rest =>
    primLoop rest ((vertices labels).length + 1)
      (insert e.2.1 (insert e.2.2 (∅ : Finset ℕ)))
      (((vertices labels).toFinset.erase e.2.1).erase e.2.2) [e]

/-- Total weight of a returned edge list. -/
def total_weight (t : List Edge) : ℚ :=
  (t.map (fun e => e.1)).sum

/-- A distance dataframe given by its rows: entry `(r, c)` is row `r`,
column `c`; absent entries read as `0`. -/
def matOf (rows : List (List ℚ)) : ℕ → ℕ → ℚ :=
  fun r c => ((rows.getD r []).getD c 0)

/-- `Graph.__init__` as a constructor: it builds `graph_dict` (keys in
column order, later duplicate columns overwriting their earlier entry) and
performs no validation whatsoever, so it never raises — every input, square
or not, negative weights or not, produces a graph object. -/
def graphInit (M : ℕ → ℕ → ℚ) (rows cols : List ℕ) :
    Except PyErr (List (ℕ × List Edge)) :=
  .ok (cols.dedup.map (fun v => (v, graph_dict M rows v)))

/-- One step in the undirected graph derived from the matrix `M` over the
label list `L`: two distinct labels joined by a non-zero entry. -/
def matStep (M : ℕ → ℕ → ℚ) (L : List ℕ) (a b : ℕ) : Prop :=
  a ∈ L ∧ b ∈ L ∧ a ≠ b ∧ M a b ≠ 0

/-- The undirected graph derived from `M` over `L` is connected. -/
def matConnected (M : ℕ → ℕ → ℚ) (L : List ℕ) : Prop :=
  ∀ u ∈ L, ∀ v ∈ L, Relation.ReflTransGen (matStep M L) u v

/-- The book matrix of Mantegna & Stanley chapter 13, as used by the
repository's `test_mst.py`, over `CHV = 0`, `GE = 1`, `KO = 2`, `PG = 3`,
`TX = 4`, `XON = 5` (alphabetical, the order of the fixture). -/
def bookM : ℕ → ℕ → ℚ := matOf [
  [0, 1.15, 1.18, 1.15, 0.84, 0.89],
  [1.15, 0, 0.86, 0.89, 1.26, 1.16],
  [1.18, 0.86, 0, 0.74, 1.27, 1.11],
  [1.15, 0.89, 0.74, 0, 1.26, 1.10],
  [0.84, 1.26, 1.27, 1.26, 0, 0.94],
  [0.89, 1.16, 1.11, 1.10, 0.94, 0]]

/-- Two labels joined by an edge of the list `t` (in either direction). -/
def estep (t : List Edge) (u v : ℕ) : Prop :=
  ∃ e ∈ t, (u = e.2.1 ∧ v = e.2.2) ∨ (u = e.2.2 ∧ v = e.2.1)

/-- Connectivity via the edges of the list `t`. -/
def connVia (t : List Edge) (u v : ℕ) : Prop :=
  Relation.ReflTransGen (estep t) u v

/-- The edges of `E` strictly below `e` in the heap order. -/
def smallerEdges (E : List Edge) (e : Edge) : List Edge :=
  E.filter (fun f => decide (edgeLe f e ∧ f ≠ e))

/-- The characterizing set of both MST algorithms: edges of `E` whose
endpoints the strictly smaller edges do not already connect.  With the
(injective) heap tuple order this is the unique minimum spanning forest. -/
def inTstar (E : List Edge) (e : Edge) : Prop :=
  e ∈ E ∧ ¬ connVia (smallerEdges E e) e.2.1 e.2.2

/-- One parent-link step of the disjoint-set forest. -/
def pstep (parents : ℕ → ℕ) (a b : ℕ) : Prop :=
  parents a ≠ a ∧ b = parents a

/-- The invariant of the disjoint-set state over the vertex set `V`:
parents stay inside `V`, everything outside `V` is its own root, and ranks
strictly increase along parent links (so parent chains are finite and short,
which is what makes the recursive `__findset` safe). -/
def parentsInv (V : Finset ℕ) (parents ranks : ℕ → ℕ) : Prop :=
  (∀ v ∈ V, parents v ∈ V) ∧ (∀ v, v ∉ V → parents v = v) ∧
    (∀ v, parents v ≠ v → ranks v < ranks (parents v))

/-- The root of `v`, with the vertex itself as the out-of-fuel default. -/
def rootD (parents : ℕ → ℕ) (fuel v : ℕ) : ℕ :=
  (findRoot parents fuel v).getD v

/-- The heapified undirected weighted edge list both MST functions pop
from: the sorted emitted edges. -/
def heapEdges (M : ℕ → ℕ → ℚ) (labels : List ℕ) : List Edge :=
  List.insertionSort edgeLe (generate_edges M labels false)

/-- The vertex set (the `graph_dict` keys) as a finite set. -/
def labelSet (labels : List ℕ) : Finset ℕ :=
  (vertices labels).toFinset

/-- The 2-label path matrix used as a witness input. -/
def mPath2 : ℕ → ℕ → ℚ := matOf [[0, 1], [1, 0]]

/-- A well-formed connected matrix with a small positive self-distance:
Prim seeds its tree with the self-loop, Kruskal discards it. -/
def mSelfLoop : ℕ → ℕ → ℚ := matOf [[1/10, 1], [1, 0]]

/-- The all-zero 2-label matrix: two isolated vertices. -/
def mZero2 : ℕ → ℕ → ℚ := matOf [[0, 0], [0, 0]]

/-- A connected symmetric zero-diagonal matrix whose single zero
off-diagonal entry makes the undirected-edge windowing lose the edge
`1 - 2`. -/
def mLostEdge : ℕ → ℕ → ℚ := matOf [[0, 0, 1], [0, 0, 1], [1, 1, 0]]

/-- The repository's own `few_distances` fixture: it contains negative
weights and the test suite nevertheless builds a graph from it. -/
def mNeg : ℕ → ℕ → ℚ := matOf [[1, 2, 3], [4, 5, 6], [-7, -8, -9]]

/-- A matrix with non-zero diagonal used to expose the sorted (rather than
matrix-order) adjacency lists. -/
def mUnsorted : ℕ → ℕ → ℚ := matOf [[7, 1], [3, 9]]

/-- The single-vertex zero matrix. -/
def mZero1 : ℕ → ℕ → ℚ := matOf [[0]]

/-- A sequence of `__union` calls threaded through the parents/ranks state,
as `kruskal_mst` performs them. -/
def ufRun (fuel : ℕ) : List (ℕ × ℕ) → (ℕ → ℕ) → (ℕ → ℕ) →
    Option ((ℕ → ℕ) × (ℕ → ℕ))
  | [], parents, ranks => some (parents, ranks)
  | op :: ops, parents, ranks =>
    match union parents ranks fuel op.1 op.2 with
    | some pr => ufRun fuel ops pr.1 pr.2
    | none => none

theorem erase_erase_card_lt {s : Finset ℕ} {a b : ℕ} (h : a ∈ s ∨ b ∈ s) :
    ((s.erase a).erase b).card < s.card := by
  apply Finset.card_lt_card
  constructor
  · intro x hx
    exact Finset.mem_of_mem_erase (Finset.mem_of_mem_erase hx)
  · intro hsub
    rcases h with h | h
    · have := hsub h
      exact (Finset.mem_erase.1 (Finset.mem_of_mem_erase this)).1 rfl
    · have := hsub h
      exact (Finset.mem_erase.1 this).1 rfl

theorem findset_snd_eq (parents : ℕ → ℕ) :
    ∀ fuel v r q, findset parents fuel v = some (r, q) → q = parents := by
  intro fuel
  induction fuel with
  | zero => intro v r q h; exact absurd h (by simp [findset])
  | succ f ih =>
    intro v r q h
    rw [findset] at h
    by_cases hv : parents v = v
    · simp [hv] at h
      exact h.2.symm
    · simp [hv] at h
      exact ih _ _ _ h

theorem findset_of_iterate_root (parents : ℕ → ℕ) :
    ∀ fuel k v, k < fuel → parents (parents^[k] v) = parents^[k] v →
    ∃ r, findset parents fuel v = some (r, parents) := by
  intro fuel
  induction fuel with
  | zero => intro k v hk _; omega
  | succ f ih =>
    intro k v hk hroot
    by_cases hv : parents v = v
    · exact ⟨v, by rw [findset]; simp [hv]⟩
    · cases k with
      | zero => simp at hroot; exact absurd hroot hv
      | succ k' =>
        rw [Function.iterate_succ_apply] at hroot
        obtain ⟨r, hr⟩ := ih k' (parents v) (by omega) hroot
        exact ⟨r, by rw [findset]; simp [hv]; exact hr⟩

/-- Claim C10: `__findset` never modifies the `parents` mapping — whenever
the ancestor chain of `v` reaches a root within the available recursion
depth, the call returns a root together with the `parents` mapping exactly
as it was (no path compression is performed, despite the docstring), and a
repeated call on the resulting state returns the very same root and
state. -/
theorem c10_findset_frame (parents : ℕ → ℕ) (v k fuel : ℕ)
    (hroot : parents (parents^[k] v) = parents^[k] v) (hk : k < fuel) :
    ∃ r, findset parents fuel v = some (r, parents) ∧
      (findset parents fuel v).bind (fun p => findset p.2 fuel v) =
        some (r, parents) := by
  obtain ⟨r, hr⟩ := findset_of_iterate_root parents fuel k v hk hroot
  exact ⟨r, hr, by rw [hr]; simpa using hr⟩

/-- Witness for C10 at the concrete chain `2 ↦ 1 ↦ 0 ↦ 0`. -/
theorem c10_findset_frame_witness :
    ((fun v => if v = 2 then 1 else if v = 1 then 0 else v)
        ((fun v => if v = 2 then 1 else if v = 1 then 0 else v)^[2] 2) =
      (fun v => if v = 2 then 1 else if v = 1 then 0 else v)^[2] 2 ∧
      2 < 3) ∧
    ∃ r, findset (fun v => if v = 2 then 1 else if v = 1 then 0 else v) 3 2 =
        some (r, fun v => if v = 2 then 1 else if v = 1 then 0 else v) ∧
      (findset (fun v => if v = 2 then 1 else if v = 1 then 0 else v) 3
          2).bind (fun p => findset p.2 3 2) =
        some (r, fun v => if v = 2 then 1 else if v = 1 then 0 else v) :=
  ⟨⟨by decide, by decide⟩,
    c10_findset_frame _ 2 2 3 (by decide) (by decide)⟩

/-- Claim C4: on the Mantegna & Stanley reference matrix both algorithms
return the MST of the book — sorted edge weights exactly
`[0.74 (KO-PG), 0.84 (CHV-TX), 0.86 (KO-GE), 0.89 (CHV-XON),
1.10 (PG-XON)]`. -/
theorem c4_book_mst :
    (kruskal_mst bookM [0, 1, 2, 3, 4, 5]).map
        (fun t => List.insertionSort edgeLe t) =
      .ok [(0.74, 2, 3), (0.84, 0, 4), (0.86, 1, 2), (0.89, 0, 5),
        (1.10, 3, 5)] ∧
    (prim_mst bookM [0, 1, 2, 3, 4, 5]).map
        (fun t => List.insertionSort edgeLe t) =
      .ok [(0.74, 2, 3), (0.84, 0, 4), (0.86, 1, 2), (0.89, 0, 5),
        (1.10, 3, 5)] := by
  with_unfolding_all decide

theorem estep_symm {t : List Edge} {u v : ℕ} (h : estep t u v) : estep t v u := by
  obtain ⟨e, he, h⟩ := h
  exact ⟨e, he, h.symm.imp And.symm And.symm⟩

theorem connVia_symm {t : List Edge} {u v : ℕ} (h : connVia t u v) :
    connVia t v u :=
  Relation.ReflTransGen.symmetric (fun _ _ => estep_symm) h

theorem connVia_mono {t t' : List Edge} (hsub : ∀ e ∈ t, e ∈ t')
    {u v : ℕ} (h : connVia t u v) : connVia t' u v := by
  refine Relation.ReflTransGen.mono ?_ h
  rintro a b ⟨e, he, hab⟩
  exact ⟨e, hsub e he, hab⟩

theorem connVia_nil {u v : ℕ} (h : connVia [] u v) : u = v := by
  induction h with
  | refl => rfl
  | tail _ hstep _ => obtain ⟨e, he, _⟩ := hstep; exact absurd he (by simp)

theorem connVia_single {t : List Edge} {e : Edge} (he : e ∈ t) :
    connVia t e.2.1 e.2.2 :=
  Relation.ReflTransGen.single ⟨e, he, Or.inl ⟨rfl, rfl⟩⟩

theorem connVia_snoc {t : List Edge} {e : Edge} {u v : ℕ} :
    connVia (t ++ [e]) u v ↔ connVia t u v ∨
      (connVia t u e.2.1 ∧ connVia t e.2.2 v) ∨
      (connVia t u e.2.2 ∧ connVia t e.2.1 v) := by
  constructor
  · intro h
    induction h with
    | refl => exact Or.inl .refl
    | tail _ hstep ih =>
      obtain ⟨f, hf, hbc⟩ := hstep
      rcases List.mem_append.1 hf with hf | hf
      · have step : estep t _ _ := ⟨f, hf, hbc⟩
        rcases ih with ih | ⟨h1, h2⟩ | ⟨h1, h2⟩
        · exact Or.inl (ih.tail step)
        · exact Or.inr (Or.inl ⟨h1, h2.tail step⟩)
        · exact Or.inr (Or.inr ⟨h1, h2.tail step⟩)
      · have hfe : f = e := by simpa using hf
        subst hfe
        rcases hbc with ⟨hb, hc⟩ | ⟨hb, hc⟩ <;> subst hb <;> subst hc
        · rcases ih with ih | ⟨h1, h2⟩ | ⟨h1, h2⟩
          · exact Or.inr (Or.inl ⟨ih, .refl⟩)
          · exact Or.inr (Or.inl ⟨h1, .refl⟩)
          · exact Or.inl h1
        · rcases ih with ih | ⟨h1, h2⟩ | ⟨h1, h2⟩
          · exact Or.inr (Or.inr ⟨ih, .refl⟩)
          · exact Or.inl h1
          · exact Or.inr (Or.inr ⟨h1, .refl⟩)
  · intro h
    have hmono : ∀ x y, connVia t x y → connVia (t ++ [e]) x y :=
      fun x y hh => connVia_mono (fun f hf => List.mem_append.2 (Or.inl hf)) hh
    have hee : connVia (t ++ [e]) e.2.1 e.2.2 :=
      connVia_single (List.mem_append.2 (Or.inr (by simp)))
    rcases h with h | ⟨h1, h2⟩ | ⟨h1, h2⟩
    · exact hmono _ _ h
    · exact ((hmono _ _ h1).trans hee).trans (hmono _ _ h2)
    · exact ((hmono _ _ h1).trans (connVia_symm hee)).trans (hmono _ _ h2)

theorem connVia_snoc_of_conn {t : List Edge} {e : Edge}
    (he : connVia t e.2.1 e.2.2) {u v : ℕ} :
    connVia (t ++ [e]) u v ↔ connVia t u v := by
  rw [connVia_snoc]
  constructor
  · rintro (h | ⟨h1, h2⟩ | ⟨h1, h2⟩)
    · exact h
    · exact h1.trans (he.trans h2)
    · exact h1.trans ((connVia_symm he).trans h2)
  · exact Or.inl

theorem connVia_crossing {t : List Edge} {S : Finset ℕ} {u v : ℕ}
    (h : connVia t u v) (hu : u ∈ S) (hv : v ∉ S) :
    ∃ e ∈ t, (e.2.1 ∈ S ∧ e.2.2 ∉ S) ∨ (e.2.2 ∈ S ∧ e.2.1 ∉ S) := by
  induction h with
  | refl => exact absurd hu hv
  | @tail b c hub hstep ih =>
    by_cases hb : b ∈ S
    · obtain ⟨e, he, hbc⟩ := hstep
      rcases hbc with ⟨h1, h2⟩ | ⟨h1, h2⟩
      · exact ⟨e, he, Or.inl ⟨h1 ▸ hb, h2 ▸ hv⟩⟩
      · exact ⟨e, he, Or.inr ⟨h1 ▸ hb, h2 ▸ hv⟩⟩
    · exact ih hb

theorem edgeLe_refl (e : Edge) : edgeLe e e := by
  rcases total_of edgeLe e e with h | h <;> exact h

theorem smallerEdges_of_sorted {E front rest : List Edge} {e : Edge}
    (hs : E.Sorted edgeLe) (hn : E.Nodup) (hE : E = front ++ e :: rest) :
    smallerEdges E e = front := by
  subst hE
  unfold smallerEdges
  rw [List.filter_append]
  have h1 : ∀ f ∈ front, edgeLe f e ∧ f ≠ e := by
    intro f hf
    constructor
    · exact (List.pairwise_append.1 hs).2.2 f hf e (by simp)
    · intro hfe
      exact (List.disjoint_of_nodup_append hn) hf (by simp [hfe])
  have h2 : List.filter (fun f => decide (edgeLe f e ∧ f ≠ e)) front = front :=
    List.filter_eq_self.2 (fun f hf => decide_eq_true (h1 f hf))
  have h3 : List.filter (fun f => decide (edgeLe f e ∧ f ≠ e)) (e :: rest) =
      [] := by
    apply List.filter_eq_nil_iff.2
    intro f hf
    simp only [decide_eq_true_eq]
    rintro ⟨hle, hne⟩
    rcases List.mem_cons.1 hf with rfl | hf
    · exact hne rfl
    · have : edgeLe e f :=
        List.rel_of_sorted_cons (List.pairwise_append.1 hs).2.1 f hf
      exact hne (antisymm hle this)
  rw [h2, h3, List.append_nil]

theorem find?_sorted_min {l : List Edge} {p : Edge → Bool} {e : Edge}
    (hs : l.Sorted edgeLe) (hfind : l.find? p = some e) :
    ∀ f ∈ l, p f = true → edgeLe e f := by
  induction l with
  | nil => simp at hfind
  | cons x xs ih =>
    by_cases hx : p x
    · rw [List.find?_cons_of_pos _ hx] at hfind
      cases hfind
      intro f hf _
      rcases List.mem_cons.1 hf with rfl | hf
      · exact edgeLe_refl f
      · exact List.rel_of_sorted_cons hs f hf
    · rw [List.find?_cons_of_neg _ (by simpa using hx)] at hfind
      intro f hf hpf
      rcases List.mem_cons.1 hf with rfl | hf
      · exact absurd hpf (by simpa using hx)
      · exact ih hs.of_cons hfind f hf hpf

theorem findset_some_rtg {parents : ℕ → ℕ} :
    ∀ {fuel v r q}, findset parents fuel v = some (r, q) →
      Relation.ReflTransGen (pstep parents) v r ∧ parents r = r := by
  intro fuel
  induction fuel with
  | zero => intro v r q h; exact absurd h (by simp [findset])
  | succ f ih =>
    intro v r q h
    rw [findset] at h
    by_cases hv : parents v = v
    · simp [hv] at h
      exact ⟨h.1 ▸ .refl, h.1 ▸ hv⟩
    · simp [hv] at h
      obtain ⟨h1, h2⟩ := ih h
      exact ⟨h1.head ⟨hv, rfl⟩, h2⟩

theorem root_rtg_eq {parents : ℕ → ℕ} {a b : ℕ} (ha : parents a = a)
    (h : Relation.ReflTransGen (pstep parents) a b) : b = a := by
  rcases h.cases_head with h | ⟨c, hc, _⟩
  · exact h.symm
  · exact absurd ha hc.1

theorem pstep_root_unique {parents : ℕ → ℕ} {v r r' : ℕ}
    (h : Relation.ReflTransGen (pstep parents) v r) (hr : parents r = r)
    (h' : Relation.ReflTransGen (pstep parents) v r')
    (hr' : parents r' = r') : r = r' := by
  revert h'
  induction h using Relation.ReflTransGen.head_induction_on with
  | refl => intro h'; exact (root_rtg_eq hr h').symm
  | @head a c hac hcr ih =>
    intro h'
    rcases h'.cases_head with rfl | ⟨c', hc', hcr'⟩
    · exact absurd hr' hac.1
    · have hcc : c' = c := hc'.2.trans hac.2.symm
      exact ih (hcc ▸ hcr')

theorem findset_succeeds_aux {V : Finset ℕ} {parents ranks : ℕ → ℕ}
    (hinv : parentsInv V parents ranks) :
    ∀ m fuel v, v ∈ V →
      (V.filter (fun u => ranks v ≤ ranks u)).card ≤ m → m < fuel →
      ∃ r, findset parents fuel v = some (r, parents) ∧ parents r = r ∧
        Relation.ReflTransGen (pstep parents) v r ∧ r ∈ V := by
  intro m
  induction m with
  | zero =>
    intro fuel v hv hcard _
    exfalso
    have : v ∈ V.filter (fun u => ranks v ≤ ranks u) :=
      Finset.mem_filter.2 ⟨hv, le_refl _⟩
    have := Finset.card_pos.2 ⟨v, this⟩
    omega
  | succ m ih =>
    intro fuel v hv hcard hfuel
    obtain ⟨f, rfl⟩ : ∃ f, fuel = f + 1 := ⟨fuel - 1, by omega⟩
    by_cases hvr : parents v = v
    · exact ⟨v, by rw [findset]; simp [hvr], hvr, .refl, hv⟩
    · have hpv : parents v ∈ V := hinv.1 v hv
      have hrk : ranks v < ranks (parents v) := hinv.2.2 v hvr
      have hsub : V.filter (fun u => ranks (parents v) ≤ ranks u) ⊆
          (V.filter (fun u => ranks v ≤ ranks u)).erase v := by
        intro u hu
        obtain ⟨huV, hru⟩ := Finset.mem_filter.1 hu
        refine Finset.mem_erase.2 ⟨?_, Finset.mem_filter.2 ⟨huV, le_trans (le_of_lt hrk) hru⟩⟩
        intro heq
        rw [heq] at hru
        omega
      have hcard' : (V.filter (fun u => ranks (parents v) ≤ ranks u)).card ≤ m := by
        have h1 := Finset.card_le_card hsub
        have h2 : ((V.filter (fun u => ranks v ≤ ranks u)).erase v).card =
            (V.filter (fun u => ranks v ≤ ranks u)).card - 1 :=
          Finset.card_erase_of_mem (Finset.mem_filter.2 ⟨hv, le_refl _⟩)
        have h3 : 0 < (V.filter (fun u => ranks v ≤ ranks u)).card :=
          Finset.card_pos.2 ⟨v, Finset.mem_filter.2 ⟨hv, le_refl _⟩⟩
        omega
      obtain ⟨r, hr1, hr2, hr3, hr4⟩ :=
        ih f (parents v) hpv hcard' (by omega)
      exact ⟨r, by rw [findset]; simp [hvr]; exact hr1, hr2,
        hr3.head ⟨hvr, rfl⟩, hr4⟩

theorem findset_succeeds {V : Finset ℕ} {parents ranks : ℕ → ℕ}
    (hinv : parentsInv V parents ranks) (v : ℕ) :
    ∃ r, findset parents (V.card + 1) v = some (r, parents) ∧
      parents r = r ∧ Relation.ReflTransGen (pstep parents) v r ∧
      (v ∈ V → r ∈ V) ∧ (v ∉ V → r = v) := by
  by_cases hv : v ∈ V
  · obtain ⟨r, h1, h2, h3, h4⟩ := findset_succeeds_aux hinv V.card (V.card + 1)
      v hv (Finset.card_le_card (Finset.filter_subset _ _)) (by omega)
    exact ⟨r, h1, h2, h3, fun _ => h4, fun hc => absurd hv hc⟩
  · have hvr : parents v = v := hinv.2.1 v hv
    exact ⟨v, by rw [findset]; simp [hvr], hvr, .refl,
      fun hc => absurd hc hv, fun _ => rfl⟩

theorem pstep_update_mono {parents : ℕ → ℕ} {lo hi : ℕ}
    (hlo : parents lo = lo) :
    ∀ u w, pstep parents u w → pstep (Function.update parents lo hi) u w := by
  intro u w huw
  obtain ⟨hu, hw⟩ := huw
  have hne : u ≠ lo := fun h => hu (h ▸ hlo)
  have heq : Function.update parents lo hi u = parents u :=
    Function.update_noteq hne hi parents
  exact ⟨by rw [heq]; exact hu, by rw [heq]; exact hw⟩

theorem parentsInv_update {V : Finset ℕ} {parents ranks : ℕ → ℕ}
    (hinv : parentsInv V parents ranks) {lo hi : ℕ}
    (hlo : parents lo = lo) (hhi : parents hi = hi) (hne : lo ≠ hi)
    (hloV : lo ∈ V) (hhiV : hi ∈ V) (hrk : ranks lo ≤ ranks hi) :
    parentsInv V (Function.update parents lo hi)
      (if ranks hi = ranks lo then Function.update ranks hi (ranks hi + 1)
        else ranks) := by
  refine ⟨?_, ?_, ?_⟩
  · intro v hv
    by_cases h : v = lo
    · rw [h, Function.update_same]; exact hhiV
    · rw [Function.update_noteq h]; exact hinv.1 v hv
  · intro v hv
    have h : v ≠ lo := fun hc => hv (hc ▸ hloV)
    rw [Function.update_noteq h]; exact hinv.2.1 v hv
  · intro v hpv
    by_cases h : v = lo
    · have hpv' : Function.update parents lo hi v = hi := by
        rw [h, Function.update_same]
      rw [hpv']
      have hvne : v ≠ hi := by rw [h]; exact hne
      by_cases hcond : ranks hi = ranks lo
      · rw [if_pos hcond, Function.update_noteq hvne, Function.update_same, h]
        omega
      · rw [if_neg hcond, h]
        omega
    · have hpv' : Function.update parents lo hi v = parents v :=
        Function.update_noteq h _ _
      rw [hpv'] at hpv ⊢
      have hold := hinv.2.2 v hpv
      have hvhi : v ≠ hi := fun heq => hpv (by rw [heq]; exact hhi)
      by_cases hcond : ranks hi = ranks lo
      · rw [if_pos hcond, Function.update_noteq hvhi]
        by_cases hph : parents v = hi
        · rw [hph] at hold
          rw [hph, Function.update_same]
          omega
        · rw [Function.update_noteq hph]; exact hold
      · rw [if_neg hcond]; exact hold

theorem findset_update_root {V : Finset ℕ} {parents ranks ranks' : ℕ → ℕ}
    {lo hi : ℕ}
    (hinv : parentsInv V parents ranks)
    (hinv' : parentsInv V (Function.update parents lo hi) ranks')
    (hlo : parents lo = lo) (hhi : parents hi = hi) (hne : lo ≠ hi)
    {v r : ℕ} (hv : findset parents (V.card + 1) v = some (r, parents)) :
    findset (Function.update parents lo hi) (V.card + 1) v =
      some ((if r = lo then hi else r), Function.update parents lo hi) := by
  obtain ⟨hrtg, hroot⟩ := findset_some_rtg hv
  obtain ⟨r', h1, h2, h3, _, _⟩ := findset_succeeds hinv' v
  have hrtg' : Relation.ReflTransGen (pstep (Function.update parents lo hi))
      v r := Relation.ReflTransGen.mono (pstep_update_mono hlo) hrtg
  by_cases hrlo : r = lo
  · subst hrlo
    have hstep : pstep (Function.update parents r hi) r hi := by
      refine ⟨?_, ?_⟩
      · rw [Function.update_same]
        exact fun h => hne h.symm
      · rw [Function.update_same]
    have hrtghi := hrtg'.tail hstep
    have hhiroot : Function.update parents r hi hi = hi := by
      rw [Function.update_noteq (fun h => hne h.symm), hhi]
    have := pstep_root_unique h3 h2 hrtghi hhiroot
    rw [h1, if_pos rfl, this]
  · have hrroot : Function.update parents lo hi r = r := by
      rw [Function.update_noteq hrlo]; exact hroot
    have := pstep_root_unique h3 h2 hrtg' hrroot
    rw [h1, if_neg hrlo, this]

theorem findRoot_of_root {parents : ℕ → ℕ} {a : ℕ} (ha : parents a = a)
    (fuel : ℕ) : findRoot parents (fuel + 1) a = some a := by
  unfold findRoot
  rw [findset]
  simp [ha]

theorem rootD_spec {V : Finset ℕ} {parents ranks : ℕ → ℕ}
    (hinv : parentsInv V parents ranks) (v : ℕ) :
    findset parents (V.card + 1) v =
        some (rootD parents (V.card + 1) v, parents) ∧
      parents (rootD parents (V.card + 1) v) = rootD parents (V.card + 1) v ∧
      Relation.ReflTransGen (pstep parents) v (rootD parents (V.card + 1) v) ∧
      (v ∈ V → rootD parents (V.card + 1) v ∈ V) ∧
      (v ∉ V → rootD parents (V.card + 1) v = v) := by
  obtain ⟨r, h1, h2, h3, h4, h5⟩ := findset_succeeds hinv v
  have hr : rootD parents (V.card + 1) v = r := by
    unfold rootD findRoot
    rw [h1]
    rfl
  rw [hr]
  exact ⟨h1, h2, h3, h4, h5⟩

theorem rootD_of_root {parents : ℕ → ℕ} {a : ℕ} (ha : parents a = a)
    (fuel : ℕ) : rootD parents (fuel + 1) a = a := by
  unfold rootD
  rw [findRoot_of_root ha]
  rfl

theorem rootD_update_eq {V : Finset ℕ} {parents ranks ranks' : ℕ → ℕ}
    {lo hi : ℕ} (hinv : parentsInv V parents ranks)
    (hinv' : parentsInv V (Function.update parents lo hi) ranks')
    (hlo : parents lo = lo) (hhi : parents hi = hi) (hne : lo ≠ hi) (v : ℕ) :
    rootD (Function.update parents lo hi) (V.card + 1) v =
      if rootD parents (V.card + 1) v = lo then hi
      else rootD parents (V.card + 1) v := by
  obtain ⟨h1, _, _, _, _⟩ := rootD_spec hinv v
  have h2 := findset_update_root hinv hinv' hlo hhi hne h1
  unfold rootD findRoot
  rw [h2]
  rfl

theorem union_attach {V : Finset ℕ} {parents ranks : ℕ → ℕ}
    (hinv : parentsInv V parents ranks) {a b : ℕ}
    (haV : a ∈ V) (hbV : b ∈ V) (ha : parents a = a) (hb : parents b = b)
    (hab : a ≠ b) :
    ∃ lo hi, ((lo = a ∧ hi = b) ∨ (lo = b ∧ hi = a)) ∧
      parents lo = lo ∧ parents hi = hi ∧ lo ≠ hi ∧ lo ∈ V ∧ hi ∈ V ∧
      union parents ranks (V.card + 1) a b =
        some (Function.update parents lo hi,
          if ranks hi = ranks lo then Function.update ranks hi (ranks hi + 1)
          else ranks) ∧
      parentsInv V (Function.update parents lo hi)
        (if ranks hi = ranks lo then Function.update ranks hi (ranks hi + 1)
          else ranks) := by
  have hfa : findRoot parents (V.card + 1) a = some a := findRoot_of_root ha _
  have hfb : findRoot parents (V.card + 1) b = some b := findRoot_of_root hb _
  by_cases hrk : ranks a < ranks b
  · refine ⟨a, b, Or.inl ⟨rfl, rfl⟩, ha, hb, hab, haV, hbV, ?_, ?_⟩
    · unfold union
      rw [hfa, hfb]
      simp only [if_neg hab, if_pos hrk]
    · exact parentsInv_update hinv ha hb hab haV hbV (le_of_lt hrk)
  · refine ⟨b, a, Or.inr ⟨rfl, rfl⟩, hb, ha, Ne.symm hab, hbV, haV, ?_, ?_⟩
    · unfold union
      rw [hfa, hfb]
      simp only [if_neg hab, if_neg hrk]
    · exact parentsInv_update hinv hb ha (Ne.symm hab) hbV haV (not_lt.1 hrk)

theorem collapse_eq_iff {lo hi x y : ℕ} (hne : lo ≠ hi) :
    (if x = lo then hi else x) = (if y = lo then hi else y) ↔
      (x = y ∨ ((x = lo ∨ x = hi) ∧ (y = lo ∨ y = hi))) := by
  split_ifs <;> omega

theorem image_collapse_card {V : Finset ℕ} {root root' : ℕ → ℕ} {lo hi : ℕ}
    (hne : lo ≠ hi)
    (hroot' : ∀ v ∈ V, root' v = if root v = lo then hi else root v)
    (hlo : lo ∈ V.image root) (hhi : hi ∈ V.image root) :
    (V.image root').card + 1 = (V.image root).card := by
  have himg : V.image root' = (V.image root).erase lo := by
    ext x
    simp only [Finset.mem_image, Finset.mem_erase]
    constructor
    · rintro ⟨v, hv, rfl⟩
      rw [hroot' v hv]
      by_cases h : root v = lo
      · rw [if_pos h]
        exact ⟨Ne.symm hne, Finset.mem_image.1 hhi⟩
      · rw [if_neg h]
        exact ⟨h, v, hv, rfl⟩
    · rintro ⟨hxlo, v, hv, rfl⟩
      exact ⟨v, hv, by rw [hroot' v hv, if_neg hxlo]⟩
  rw [himg, Finset.card_erase_of_mem hlo]
  have hpos : 0 < (V.image root).card := Finset.card_pos.2 ⟨lo, hlo⟩
  omega

theorem connVia_snoc_congr {t f : List Edge}
    (h : ∀ x y, connVia t x y ↔ connVia f x y) (e : Edge) (u v : ℕ) :
    connVia (t ++ [e]) u v ↔ connVia (f ++ [e]) u v := by
  rw [connVia_snoc, connVia_snoc]
  simp only [h]

theorem smallerEdges_suffix {E front rest : List Edge} {e : Edge}
    (hs : E.Sorted edgeLe) (hn : E.Nodup) (hE : E = front ++ rest)
    (he : e ∈ rest) : ∃ mid, smallerEdges E e = front ++ mid := by
  obtain ⟨mid, rrest, hrest⟩ := List.append_of_mem he
  refine ⟨mid, ?_⟩
  have : E = (front ++ mid) ++ e :: rrest := by
    rw [hE, hrest, List.append_assoc]
  rw [smallerEdges_of_sorted hs hn this]

theorem kruskal_exit {V : Finset ℕ} {E : List Edge}
    (hEsort : E.Sorted edgeLe) (hEnodup : E.Nodup)
    (hEnds : ∀ e ∈ E, e.2.1 ∈ V ∧ e.2.2 ∈ V)
    {rest front tree : List Edge} {parents ranks : ℕ → ℕ}
    (hE : E = front ++ rest)
    (hinv : parentsInv V parents ranks)
    (hI2 : ∀ u, u ∈ V → ∀ v, v ∈ V →
      (rootD parents (V.card + 1) u = rootD parents (V.card + 1) v ↔
        connVia tree u v))
    (hI3 : ∀ f, f ∈ tree ↔ (f ∈ front ∧ inTstar E f))
    (hI4 : ∀ x y, connVia tree x y ↔ connVia front x y)
    (hI5 : tree.length + (V.image (rootD parents (V.card + 1))).card = V.card)
    (hguard : ¬ tree.length < V.card - 1) :
    tree.length = V.card - 1 ∧ (∀ f, f ∈ tree ↔ inTstar E f) ∧
      (∀ u, u ∈ V → ∀ v, v ∈ V → connVia E u v) := by
  by_cases hVempty : V = ∅
  · have hEnil : E = [] := by
      apply List.eq_nil_iff_forall_not_mem.2
      intro e he
      have h1 := (hEnds e he).1
      rw [hVempty] at h1
      exact absurd h1 (Finset.not_mem_empty _)
    have hfront : front = [] := (List.append_eq_nil.1 (hEnil ▸ hE.symm)).1
    have htree : tree = [] := by
      apply List.eq_nil_iff_forall_not_mem.2
      intro f hf
      have h1 := ((hI3 f).1 hf).1
      rw [hfront] at h1
      exact absurd h1 (List.not_mem_nil f)
    refine ⟨by rw [htree, hVempty]; simp, ?_, ?_⟩
    · intro f
      rw [htree]
      simp only [List.not_mem_nil, false_iff]
      intro hT
      rw [hEnil] at hT
      exact absurd hT.1 (List.not_mem_nil f)
    · intro u hu
      rw [hVempty] at hu
      exact absurd hu (Finset.not_mem_empty u)
  · obtain ⟨w, hw⟩ := Finset.nonempty_iff_ne_empty.2 hVempty
    have hcipos : 0 < (V.image (rootD parents (V.card + 1))).card :=
      Finset.card_pos.2 ⟨_, Finset.mem_image_of_mem _ hw⟩
    have hlen : tree.length = V.card - 1 := by omega
    have hci1 : (V.image (rootD parents (V.card + 1))).card = 1 := by omega
    obtain ⟨x, hx⟩ := Finset.card_eq_one.1 hci1
    have hroots : ∀ u ∈ V, rootD parents (V.card + 1) u = x := by
      intro u hu
      have h1 : rootD parents (V.card + 1) u ∈
          V.image (rootD parents (V.card + 1)) := Finset.mem_image_of_mem _ hu
      rw [hx] at h1
      exact Finset.mem_singleton.1 h1
    have hconnAll : ∀ u, u ∈ V → ∀ v, v ∈ V → connVia tree u v := by
      intro u hu v hv
      exact (hI2 u hu v hv).1 (by rw [hroots u hu, hroots v hv])
    have htreeE : ∀ f ∈ tree, f ∈ E := by
      intro f hf
      rw [hE]
      exact List.mem_append.2 (Or.inl ((hI3 f).1 hf).1)
    refine ⟨hlen, ?_, ?_⟩
    · intro f
      constructor
      · exact fun hf => ((hI3 f).1 hf).2
      · intro hT
        have hfE : f ∈ front ++ rest := by rw [← hE]; exact hT.1
        rcases List.mem_append.1 hfE with hfr | hrest
        · exact (hI3 f).2 ⟨hfr, hT⟩
        · exfalso
          obtain ⟨hf1, hf2⟩ := hEnds f hT.1
          have hconnT := hconnAll _ hf1 _ hf2
          have hconnF : connVia front f.2.1 f.2.2 := (hI4 _ _).1 hconnT
          obtain ⟨mid, hmid⟩ := smallerEdges_suffix hEsort hEnodup hE hrest
          refine hT.2 ?_
          rw [hmid]
          exact connVia_mono (fun g hg => List.mem_append.2 (Or.inl hg)) hconnF
    · intro u hu v hv
      exact connVia_mono htreeE (hconnAll u hu v hv)

theorem kruskalLoop_run (V : Finset ℕ) (E : List Edge)
    (hEsort : E.Sorted edgeLe) (hEnodup : E.Nodup)
    (hEnds : ∀ e ∈ E, e.2.1 ∈ V ∧ e.2.2 ∈ V) :
    ∀ (rest front tree : List Edge) (parents ranks : ℕ → ℕ),
      E = front ++ rest →
      parentsInv V parents ranks →
      (∀ u, u ∈ V → ∀ v, v ∈ V →
        (rootD parents (V.card + 1) u = rootD parents (V.card + 1) v ↔
          connVia tree u v)) →
      (∀ f, f ∈ tree ↔ (f ∈ front ∧ inTstar E f)) →
      (∀ x y, connVia tree x y ↔ connVia front x y) →
      tree.Nodup →
      tree.length + (V.image (rootD parents (V.card + 1))).card = V.card →
      (∃ t, kruskalLoop (V.card + 1) V.card rest tree parents ranks = .ok t ∧
          t.Nodup ∧ t.length = V.card - 1 ∧ (∀ f, f ∈ t ↔ inTstar E f) ∧
          (∀ u, u ∈ V → ∀ v, v ∈ V → connVia E u v)) ∨
        (kruskalLoop (V.card + 1) V.card rest tree parents ranks =
            .error .indexError ∧
          ∃ u, u ∈ V ∧ ∃ v, v ∈ V ∧ ¬ connVia E u v) := by
  intro rest
  induction rest with
  | nil =>
    intro front tree parents ranks hE hinv hI2 hI3 hI4 hnodup hI5
    by_cases hguard : tree.length < V.card - 1
    · rw [kruskalLoop, if_pos hguard]
      refine Or.inr ⟨rfl, ?_⟩
      have hcard2 : 1 < (V.image (rootD parents (V.card + 1))).card := by
        omega
      obtain ⟨a, ha, b, hb, hab⟩ := Finset.one_lt_card.1 hcard2
      obtain ⟨u, hu, hua⟩ := Finset.mem_image.1 ha
      obtain ⟨v, hv, hvb⟩ := Finset.mem_image.1 hb
      refine ⟨u, hu, v, hv, ?_⟩
      intro hconn
      have hconnF : connVia front u v := by
        have : E = front := by rw [hE]; simp
        rw [← this]
        exact hconn
      have := (hI2 u hu v hv).2 ((hI4 u v).2 hconnF)
      rw [hua, hvb] at this
      exact hab this
    · rw [kruskalLoop, if_neg hguard]
      obtain ⟨hlen, hchar, hconn⟩ :=
        kruskal_exit hEsort hEnodup hEnds hE hinv hI2 hI3 hI4 hI5 hguard
      exact Or.inl ⟨tree, rfl, hnodup, hlen, hchar, hconn⟩
  | cons e rest' ih =>
    intro front tree parents ranks hE hinv hI2 hI3 hI4 hnodup hI5
    by_cases hguard : tree.length < V.card - 1
    · have heE : e ∈ E := by
        rw [hE]
        exact List.mem_append.2 (Or.inr (List.mem_cons_self e rest'))
      obtain ⟨he1, he2⟩ := hEnds e heE
      obtain ⟨hf1, hroot1, hrtg1, hrin1, _⟩ := rootD_spec hinv e.2.1
      obtain ⟨hf2, hroot2, hrtg2, hrin2, _⟩ := rootD_spec hinv e.2.2
      have hfr1 : findRoot parents (V.card + 1) e.2.1 =
          some (rootD parents (V.card + 1) e.2.1) := by
        unfold findRoot
        rw [hf1]
        rfl
      have hfr2 : findRoot parents (V.card + 1) e.2.2 =
          some (rootD parents (V.card + 1) e.2.2) := by
        unfold findRoot
        rw [hf2]
        rfl
      have hEassoc : E = (front ++ [e]) ++ rest' := by
        rw [hE, List.append_assoc]
        rfl
      have hsmall : smallerEdges E e = front :=
        smallerEdges_of_sorted hEsort hEnodup hE
      have henotfront : e ∉ front := fun hf =>
        (List.disjoint_of_nodup_append (hE ▸ hEnodup)) hf
          (List.mem_cons_self e rest')
      by_cases hrr : rootD parents (V.card + 1) e.2.1 =
          rootD parents (V.card + 1) e.2.2
      · have heconns : connVia front e.2.1 e.2.2 :=
          (hI4 _ _).1 ((hI2 _ he1 _ he2).1 hrr)
        have hnotT : ¬ inTstar E e := fun hT => by
          refine hT.2 ?_
          rw [hsmall]
          exact heconns
        rw [kruskalLoop, if_pos hguard]
        simp only [hfr1, hfr2]
        rw [if_neg (not_not_intro hrr)]
        refine ih (front ++ [e]) tree parents ranks hEassoc hinv hI2 ?_ ?_
          hnodup hI5
        · intro f
          rw [hI3 f]
          constructor
          · rintro ⟨hfr, hT⟩
            exact ⟨List.mem_append.2 (Or.inl hfr), hT⟩
          · rintro ⟨hfe, hT⟩
            rcases List.mem_append.1 hfe with hfr | hfe1
            · exact ⟨hfr, hT⟩
            · exfalso
              have hfeq : f = e := by simpa using hfe1
              exact hnotT (hfeq ▸ hT)
        · intro x y
          rw [connVia_snoc_of_conn heconns]
          exact hI4 x y
      · have hinT : inTstar E e := by
          refine ⟨heE, ?_⟩
          rw [hsmall]
          intro hc
          exact hrr ((hI2 _ he1 _ he2).2 ((hI4 _ _).2 hc))
        obtain ⟨lo, hi, hlohi, hplo, hphi, hlohine, hloV, hhiV, hunion,
          hinv'⟩ := union_attach hinv (hrin1 he1) (hrin2 he2) hroot1 hroot2 hrr
        have hrootchange : ∀ v, rootD (Function.update parents lo hi)
            (V.card + 1) v =
            if rootD parents (V.card + 1) v = lo then hi
            else rootD parents (V.card + 1) v :=
          rootD_update_eq hinv hinv' hplo hphi hlohine
        have henotree : e ∉ tree := fun hf => henotfront ((hI3 e).1 hf).1
        have hloimg : lo ∈ V.image (rootD parents (V.card + 1)) := by
          rcases hlohi with ⟨rfl, _⟩ | ⟨rfl, _⟩
          · exact Finset.mem_image.2 ⟨e.2.1, he1, rfl⟩
          · exact Finset.mem_image.2 ⟨e.2.2, he2, rfl⟩
        have hhiimg : hi ∈ V.image (rootD parents (V.card + 1)) := by
          rcases hlohi with ⟨_, rfl⟩ | ⟨_, rfl⟩
          · exact Finset.mem_image.2 ⟨e.2.2, he2, rfl⟩
          · exact Finset.mem_image.2 ⟨e.2.1, he1, rfl⟩
        have himgcard : (V.image (rootD (Function.update parents lo hi)
            (V.card + 1))).card + 1 =
            (V.image (rootD parents (V.card + 1))).card :=
          image_collapse_card hlohine (fun v _ => hrootchange v) hloimg hhiimg
        rw [kruskalLoop, if_pos hguard]
        simp only [hfr1, hfr2]
        rw [if_pos hrr]
        simp only [hunion]
        refine ih (front ++ [e]) (tree ++ [e]) _ _ hEassoc hinv' ?_ ?_ ?_ ?_ ?_
        · intro u hu v hv
          have h1 := hI2 u hu v hv
          have h2 := hI2 u hu e.2.1 he1
          have h3 := hI2 e.2.2 he2 v hv
          have h4 := hI2 u hu e.2.2 he2
          have h5 := hI2 e.2.1 he1 v hv
          rw [hrootchange u, hrootchange v, collapse_eq_iff hlohine,
            connVia_snoc, ← h1, ← h2, ← h3, ← h4, ← h5]
          rcases hlohi with ⟨rfl, rfl⟩ | ⟨rfl, rfl⟩ <;> omega
        · intro f
          rw [List.mem_append, List.mem_append, hI3 f]
          simp only [List.mem_singleton]
          constructor
          · rintro (⟨hfr, hT⟩ | rfl)
            · exact ⟨Or.inl hfr, hT⟩
            · exact ⟨Or.inr rfl, hinT⟩
          · rintro ⟨hor, hT⟩
            rcases hor with hfr | rfl
            · exact Or.inl ⟨hfr, hT⟩
            · exact Or.inr rfl
        · exact fun x y => connVia_snoc_congr hI4 e x y
        · exact hnodup.append (List.nodup_singleton e)
            (by simpa using henotree)
        · rw [List.length_append]
          simp only [List.length_singleton]
          omega
    · rw [kruskalLoop, if_neg hguard]
      obtain ⟨hlen, hchar, hconn⟩ :=
        kruskal_exit hEsort hEnodup hEnds hE hinv hI2 hI3 hI4 hI5 hguard
      exact Or.inl ⟨tree, rfl, hnodup, hlen, hchar, hconn⟩

theorem sdiff_insert_insert (V S : Finset ℕ) (a b : ℕ) :
    ((V \ S).erase a).erase b = V \ (insert a (insert b S)) := by
  ext x
  simp only [Finset.mem_erase, Finset.mem_sdiff, Finset.mem_insert]
  tauto

theorem smallest_edge_prop {es : List Edge} {S N : Finset ℕ} {e : Edge}
    (h : smallest_edge es S N = some e) :
    e ∈ es ∧ (e.2.1 ∈ S ∨ e.2.2 ∈ S) ∧ (e.2.1 ∈ N ∨ e.2.2 ∈ N) := by
  unfold smallest_edge at h
  have h1 := List.mem_of_find?_eq_some h
  have h2 := List.find?_some h
  have h3 := of_decide_eq_true h2
  exact ⟨h1, h3.1, h3.2⟩

theorem smallest_edge_min {es : List Edge} {S N : Finset ℕ} {e : Edge}
    (hs : es.Sorted edgeLe) (h : smallest_edge es S N = some e) :
    ∀ f ∈ es, (f.2.1 ∈ S ∨ f.2.2 ∈ S) → (f.2.1 ∈ N ∨ f.2.2 ∈ N) →
      edgeLe e f := by
  unfold smallest_edge at h
  intro f hf hf1 hf2
  exact find?_sorted_min hs h f hf (decide_eq_true ⟨hf1, hf2⟩)

theorem smallest_edge_none {es : List Edge} {S N : Finset ℕ}
    (h : smallest_edge es S N = none) :
    ∀ f ∈ es, ¬((f.2.1 ∈ S ∨ f.2.2 ∈ S) ∧ (f.2.1 ∈ N ∨ f.2.2 ∈ N)) := by
  unfold smallest_edge at h
  intro f hf hc
  have := List.find?_eq_none.1 h f hf
  exact this (decide_eq_true hc)

theorem primLoop_run (V : Finset ℕ) (E : List Edge) (e0 : Edge)
    (es : List Edge) (hEdef : E = e0 :: es)
    (hEsort : E.Sorted edgeLe) (hEnodup : E.Nodup)
    (hEnds : ∀ e ∈ E, e.2.1 ∈ V ∧ e.2.2 ∈ V ∧ e.2.1 ≠ e.2.2)
    (hconn : ∀ u, u ∈ V → ∀ v, v ∈ V → connVia E u v) :
    ∀ fuel (S : Finset ℕ) (tree : List Edge),
      (V \ S).card < fuel →
      S ⊆ V → S.Nonempty →
      (∀ f ∈ tree, f.2.1 ∈ S ∧ f.2.2 ∈ S) →
      (∀ f ∈ tree, inTstar E f) →
      tree.Nodup →
      tree.length + 1 = S.card →
      e0.2.1 ∈ S → e0.2.2 ∈ S →
      ∃ t, primLoop es fuel S (V \ S) tree = .ok t ∧ t.Nodup ∧
        t.length + 1 = V.card ∧ (∀ f ∈ t, inTstar E f) := by
  have hessort : es.Sorted edgeLe := by
    have := hEdef ▸ hEsort
    exact this.of_cons
  intro fuel
  induction fuel with
  | zero =>
    intro S tree hfuel
    exact absurd hfuel (Nat.not_lt_zero _)
  | succ f ihf =>
    intro S tree hfuel hSV hSne htS htT hnodup hlen he01 he02
    rw [primLoop]
    by_cases hNempty : V \ S = ∅
    · rw [if_pos hNempty]
      have hVS : V ⊆ S := by
        intro x hx
        by_contra hxS
        exact (Finset.not_mem_empty x) (hNempty ▸ Finset.mem_sdiff.2 ⟨hx, hxS⟩)
      have hSV' : S = V := Finset.Subset.antisymm hSV hVS
      exact ⟨tree, rfl, hnodup, by rw [hSV'] at hlen; exact hlen, htT⟩
    · rw [if_neg hNempty]
      obtain ⟨w, hw⟩ := Finset.nonempty_iff_ne_empty.2 hNempty
      have hwV : w ∈ V := (Finset.mem_sdiff.1 hw).1
      have hwS : w ∉ S := (Finset.mem_sdiff.1 hw).2
      obtain ⟨u0, hu0⟩ := hSne
      have hcuw : connVia E u0 w := hconn u0 (hSV hu0) w hwV
      obtain ⟨f0, hf0E, hf0cross⟩ := connVia_crossing hcuw hu0 hwS
      have hf0es : f0 ∈ es := by
        have hmem : f0 ∈ e0 :: es := hEdef ▸ hf0E
        rcases List.mem_cons.1 hmem with rfl | h
        · exfalso
          rcases hf0cross with ⟨_, h2⟩ | ⟨_, h2⟩
          · exact h2 he02
          · exact h2 he01
        · exact h
      have hf0p : (f0.2.1 ∈ S ∨ f0.2.2 ∈ S) ∧
          (f0.2.1 ∈ V \ S ∨ f0.2.2 ∈ V \ S) := by
        obtain ⟨hv1, hv2, _⟩ := hEnds f0 hf0E
        rcases hf0cross with ⟨h1, h2⟩ | ⟨h1, h2⟩
        · exact ⟨Or.inl h1, Or.inr (Finset.mem_sdiff.2 ⟨hv2, h2⟩)⟩
        · exact ⟨Or.inr h1, Or.inl (Finset.mem_sdiff.2 ⟨hv1, h2⟩)⟩
      obtain ⟨e, hfind⟩ : ∃ e, smallest_edge es S (V \ S) = some e := by
        cases hfind : smallest_edge es S (V \ S) with
        | none => exact absurd hf0p (smallest_edge_none hfind f0 hf0es)
        | some e => exact ⟨e, rfl⟩
      simp only [hfind]
      obtain ⟨heEs, hep1, hep2⟩ := smallest_edge_prop hfind
      have heE : e ∈ E := hEdef ▸ List.mem_cons_of_mem e0 heEs
      obtain ⟨heV1, heV2, hedist⟩ := hEnds e heE
      have hSdisj : ∀ x, x ∈ S → x ∉ V \ S := by
        intro x hx hxn
        exact (Finset.mem_sdiff.1 hxn).2 hx
      have hcases : (e.2.1 ∈ S ∧ e.2.2 ∈ V \ S ∧ e.2.2 ∉ S) ∨
          (e.2.2 ∈ S ∧ e.2.1 ∈ V \ S ∧ e.2.1 ∉ S) := by
        rcases hep1 with h1 | h1
        · rcases hep2 with h2 | h2
          · exact absurd h2 (hSdisj _ h1)
          · exact Or.inl ⟨h1, h2, (Finset.mem_sdiff.1 h2).2⟩
        · rcases hep2 with h2 | h2
          · exact Or.inr ⟨h1, h2, (Finset.mem_sdiff.1 h2).2⟩
          · exact absurd h2 (hSdisj _ h1)
      have heT : inTstar E e := by
        refine ⟨heE, ?_⟩
        intro hcsm
        have hcross : ∃ f' ∈ smallerEdges E e,
            (f'.2.1 ∈ S ∧ f'.2.2 ∉ S) ∨ (f'.2.2 ∈ S ∧ f'.2.1 ∉ S) := by
          rcases hcases with ⟨h1, _, h3⟩ | ⟨h1, _, h3⟩
          · exact connVia_crossing hcsm h1 h3
          · exact connVia_crossing (connVia_symm hcsm) h1 h3
        obtain ⟨f', hf'sm, hf'cross⟩ := hcross
        have hf'E : f' ∈ E := List.mem_of_mem_filter hf'sm
        have hf'dec := List.of_mem_filter hf'sm
        simp only [decide_eq_true_eq] at hf'dec
        obtain ⟨hf'le, hf'ne⟩ := hf'dec
        obtain ⟨hfv1, hfv2, _⟩ := hEnds f' hf'E
        have hf'es : f' ∈ es := by
          have hmem : f' ∈ e0 :: es := hEdef ▸ hf'E
          rcases List.mem_cons.1 hmem with rfl | h
          · exfalso
            rcases hf'cross with ⟨_, h2⟩ | ⟨_, h2⟩
            · exact h2 he02
            · exact h2 he01
          · exact h
        have hf'p1 : f'.2.1 ∈ S ∨ f'.2.2 ∈ S := by
          rcases hf'cross with ⟨h1, _⟩ | ⟨h1, _⟩
          · exact Or.inl h1
          · exact Or.inr h1
        have hf'p2 : f'.2.1 ∈ V \ S ∨ f'.2.2 ∈ V \ S := by
          rcases hf'cross with ⟨_, h2⟩ | ⟨_, h2⟩
          · exact Or.inr (Finset.mem_sdiff.2 ⟨hfv2, h2⟩)
          · exact Or.inl (Finset.mem_sdiff.2 ⟨hfv1, h2⟩)
        have hle := smallest_edge_min hessort hfind f' hf'es hf'p1 hf'p2
        exact hf'ne (antisymm hf'le hle)
      have henotree : e ∉ tree := by
        intro hc
        obtain ⟨h1, h2⟩ := htS e hc
        rcases hcases with ⟨_, _, h3⟩ | ⟨_, h3', h3⟩
        · exact h3 h2
        · exact h3 h1
      have hS'card : (insert e.2.1 (insert e.2.2 S)).card = S.card + 1 := by
        rcases hcases with ⟨h1, _, h3⟩ | ⟨h1, _, h3⟩
        · rw [Finset.insert_eq_self.2 (Finset.mem_insert_of_mem h1),
            Finset.card_insert_of_not_mem h3]
        · rw [Finset.insert_eq_self.2 h1, Finset.card_insert_of_not_mem h3]
      have hfcard : (((V \ S).erase e.2.1).erase e.2.2).card < f := by
        have hlt : (((V \ S).erase e.2.1).erase e.2.2).card < (V \ S).card := by
          apply erase_erase_card_lt
          rcases hcases with ⟨_, h2, _⟩ | ⟨_, h2, _⟩
          · exact Or.inr h2
          · exact Or.inl h2
        omega
      rw [sdiff_insert_insert]
      refine ihf (insert e.2.1 (insert e.2.2 S)) (tree ++ [e]) ?_ ?_ ?_ ?_ ?_
        ?_ ?_ ?_ ?_
      · rw [← sdiff_insert_insert]
        exact hfcard
      · exact Finset.insert_subset_iff.2 ⟨heV1,
          Finset.insert_subset_iff.2 ⟨heV2, hSV⟩⟩
      · exact ⟨e.2.1, Finset.mem_insert_self _ _⟩
      · intro g hg
        rcases List.mem_append.1 hg with hg | hg
        · obtain ⟨hg1, hg2⟩ := htS g hg
          exact ⟨Finset.mem_insert_of_mem (Finset.mem_insert_of_mem hg1),
            Finset.mem_insert_of_mem (Finset.mem_insert_of_mem hg2)⟩
        · have hge : g = e := by simpa using hg
          subst hge
          exact ⟨Finset.mem_insert_self _ _,
            Finset.mem_insert_of_mem (Finset.mem_insert_self _ _)⟩
      · intro g hg
        rcases List.mem_append.1 hg with hg | hg
        · exact htT g hg
        · have hge : g = e := by simpa using hg
          subst hge
          exact heT
      · exact hnodup.append (List.nodup_singleton e) (by simpa using henotree)
      · rw [List.length_append, List.length_singleton]
        omega
      · exact Finset.mem_insert_of_mem (Finset.mem_insert_of_mem he01)
      · exact Finset.mem_insert_of_mem (Finset.mem_insert_of_mem he02)

theorem primLoop_disconnected (V A B : Finset ℕ) (E : List Edge) (e0 : Edge)
    (es : List Edge) (hEdef : E = e0 :: es)
    (hEnds : ∀ e ∈ E, e.2.1 ∈ V ∧ e.2.2 ∈ V)
    (hVAB : V = A ∪ B) (hdisj : Disjoint A B) (hBne : B.Nonempty)
    (hnocross : ∀ e ∈ E, ¬(e.2.1 ∈ A ∧ e.2.2 ∈ B) ∧
      ¬(e.2.1 ∈ B ∧ e.2.2 ∈ A)) :
    ∀ fuel (S : Finset ℕ) (tree : List Edge),
      (V \ S).card < fuel → S ⊆ A →
      primLoop es fuel S (V \ S) tree = .error .indexError := by
  intro fuel
  induction fuel with
  | zero =>
    intro S tree hfuel _
    exact absurd hfuel (Nat.not_lt_zero _)
  | succ f ihf =>
    intro S tree hfuel hSA
    rw [primLoop]
    have hNne : V \ S ≠ ∅ := by
      obtain ⟨b, hb⟩ := hBne
      have hbV : b ∈ V := by
        rw [hVAB]
        exact Finset.mem_union_right _ hb
      have hbS : b ∉ S := fun hc => (Finset.disjoint_left.1 hdisj) (hSA hc) hb
      intro hc
      exact (Finset.not_mem_empty b) (hc ▸ Finset.mem_sdiff.2 ⟨hbV, hbS⟩)
    rw [if_neg hNne]
    cases hfind : smallest_edge es S (V \ S) with
    | none => rfl
    | some e =>
      obtain ⟨heEs, hep1, hep2⟩ := smallest_edge_prop hfind
      have heE : e ∈ E := hEdef ▸ List.mem_cons_of_mem e0 heEs
      obtain ⟨heV1, heV2⟩ := hEnds e heE
      obtain ⟨hnc1, hnc2⟩ := hnocross e heE
      have hbothA : e.2.1 ∈ A ∧ e.2.2 ∈ A := by
        rcases hep1 with h1 | h1
        · have h1A : e.2.1 ∈ A := hSA h1
          refine ⟨h1A, ?_⟩
          have h2 := heV2
          rw [hVAB] at h2
          rcases Finset.mem_union.1 h2 with h | h
          · exact h
          · exact absurd ⟨h1A, h⟩ hnc1
        · have h1A : e.2.2 ∈ A := hSA h1
          refine ⟨?_, h1A⟩
          have h2 := heV1
          rw [hVAB] at h2
          rcases Finset.mem_union.1 h2 with h | h
          · exact h
          · exact absurd ⟨h, h1A⟩ hnc2
      have hrec : primLoop es f (insert e.2.1 (insert e.2.2 S))
          (((V \ S).erase e.2.1).erase e.2.2) (tree ++ [e]) =
          .error .indexError := by
        rw [sdiff_insert_insert]
        apply ihf
        · rw [← sdiff_insert_insert]
          have hlt := erase_erase_card_lt (s := V \ S) (a := e.2.1)
            (b := e.2.2) hep2
          omega
        · exact Finset.insert_subset_iff.2 ⟨hbothA.1,
            Finset.insert_subset_iff.2 ⟨hbothA.2, hSA⟩⟩
      exact hrec

theorem filterMap_some_eq_map {α β : Type} (g : α → Option β) (f : α → β)
    (l : List α) (h : ∀ a ∈ l, g a = some (f a)) : l.filterMap g = l.map f := by
  induction l with
  | nil => rfl
  | cons x xs ih =>
    rw [List.filterMap_cons_some (h x (List.mem_cons_self x xs)),
      List.map_cons, ih (fun a ha => h a (List.mem_cons_of_mem x ha))]

theorem graph_dict_mem {M : ℕ → ℕ → ℚ} {rows : List ℕ} {v : ℕ} {e : Edge} :
    e ∈ graph_dict M rows v ↔ ∃ d ∈ rows, M d v ≠ 0 ∧ e = (M d v, v, d) := by
  unfold graph_dict
  rw [List.mem_filterMap]
  constructor
  · rintro ⟨d, hd, hde⟩
    by_cases hz : M d v = 0
    · rw [if_pos hz] at hde
      exact absurd hde (by simp)
    · rw [if_neg hz] at hde
      have hdrows : d ∈ rows :=
        (List.perm_insertionSort (fun a b => a ≤ b) rows).mem_iff.1 hd
      exact ⟨d, hdrows, hz, (Option.some_injective _ hde).symm⟩
  · rintro ⟨d, hd, hz, rfl⟩
    refine ⟨d, ?_, by rw [if_neg hz]⟩
    exact (List.perm_insertionSort (fun a b => a ≤ b) rows).mem_iff.2 hd

theorem graph_dict_origin {M : ℕ → ℕ → ℚ} {rows : List ℕ} {v : ℕ} {e : Edge}
    (he : e ∈ graph_dict M rows v) : e.2.1 = v := by
  obtain ⟨d, _, _, rfl⟩ := graph_dict_mem.1 he
  rfl

theorem genEdgesAux_mem {g : ℕ → List Edge} {directed : Bool} :
    ∀ {vs : List ℕ} {i : ℕ} {e : Edge}, e ∈ genEdgesAux g directed vs i →
      ∃ v ∈ vs, e ∈ g v := by
  intro vs
  induction vs with
  | nil => intro i e he; exact absurd he (by simp [genEdgesAux])
  | cons v vs' ih =>
    intro i e he
    rw [genEdgesAux] at he
    rcases List.mem_append.1 he with he | he
    · exact ⟨v, List.mem_cons_self v vs', List.drop_subset _ _ he⟩
    · obtain ⟨w, hw, hew⟩ := ih he
      exact ⟨w, List.mem_cons_of_mem v hw, hew⟩

theorem generate_edges_mem {M : ℕ → ℕ → ℚ} {labels : List ℕ}
    {directed : Bool} {e : Edge} (he : e ∈ generate_edges M labels directed) :
    e.2.1 ∈ labels ∧ e.2.2 ∈ labels ∧ e.1 = M e.2.2 e.2.1 ∧
      M e.2.2 e.2.1 ≠ 0 := by
  obtain ⟨v, hv, hev⟩ := genEdgesAux_mem he
  obtain ⟨d, hd, hz, rfl⟩ := graph_dict_mem.1 hev
  exact ⟨List.dedup_subset _ hv, hd, rfl, hz⟩

theorem graph_dict_nodup {M : ℕ → ℕ → ℚ} {rows : List ℕ} {v : ℕ}
    (hnodup : rows.Nodup) : (graph_dict M rows v).Nodup := by
  unfold graph_dict
  refine List.Nodup.filterMap ?_
    (((List.perm_insertionSort (fun a b => a ≤ b) rows).nodup_iff).2 hnodup)
  intro a a' b hba hba'
  simp only [Option.mem_def] at hba hba'
  by_cases hz : M a v = 0
  · rw [if_pos hz] at hba
    exact absurd hba (by simp)
  · rw [if_neg hz] at hba
    by_cases hz' : M a' v = 0
    · rw [if_pos hz'] at hba'
      exact absurd hba' (by simp)
    · rw [if_neg hz'] at hba'
      have h1 := (Option.some_injective _ hba)
      have h2 := (Option.some_injective _ hba')
      have := h1.trans h2.symm
      exact (Prod.ext_iff.1 (Prod.ext_iff.1 this).2).2

theorem genEdgesAux_nodup {g : ℕ → List Edge} {directed : Bool}
    (horig : ∀ v e, e ∈ g v → e.2.1 = v)
    (hgnodup : ∀ v, (g v).Nodup) :
    ∀ {vs : List ℕ} {i : ℕ}, vs.Nodup →
      (genEdgesAux g directed vs i).Nodup := by
  intro vs
  induction vs with
  | nil => intro i _; simp [genEdgesAux]
  | cons v vs' ih =>
    intro i hnodup
    rw [genEdgesAux]
    refine List.Nodup.append ((hgnodup v).sublist (List.drop_sublist _ _))
      (ih (List.nodup_cons.1 hnodup).2) ?_
    intro e he he'
    obtain ⟨w, hw, hew⟩ := genEdgesAux_mem he'
    have h1 : e.2.1 = v := horig v e (List.drop_subset _ _ he)
    have h2 : e.2.1 = w := horig w e hew
    exact (List.nodup_cons.1 hnodup).1 (by rw [h1.symm.trans h2]; exact hw)

theorem generate_edges_nodup {M : ℕ → ℕ → ℚ} {labels : List ℕ}
    {directed : Bool} (hnodup : labels.Nodup) :
    (generate_edges M labels directed).Nodup := by
  unfold generate_edges vertices
  exact genEdgesAux_nodup (fun v e he => graph_dict_origin he)
    (fun v => graph_dict_nodup hnodup) (List.nodup_dedup labels)

theorem sorted_lt_nodup {l : List ℕ} (h : l.Sorted (· < ·)) : l.Nodup :=
  h.imp ne_of_lt

theorem insertionSort_sorted_eq {l : List ℕ} (h : l.Sorted (· < ·)) :
    List.insertionSort (fun a b => a ≤ b) l = l :=
  List.Sorted.insertionSort_eq (h.imp le_of_lt)

theorem sorted_split_facts {labels front back : List ℕ} {v : ℕ}
    (hsort : labels.Sorted (· < ·)) (hsplit : labels = front ++ v :: back) :
    (∀ u ∈ front, u < v) ∧ (∀ u ∈ back, v < u) := by
  have h : (front ++ v :: back).Sorted (· < ·) := hsplit ▸ hsort
  have h1 := (List.pairwise_append.1 h).2.2
  have h2 := (List.pairwise_append.1 h).2.1
  exact ⟨fun u hu => h1 u hu v (List.mem_cons_self v back),
    fun u hu => List.rel_of_sorted_cons h2 u hu⟩

theorem filterMap_eq_map_filter {α β : Type} (g : α → Option β) (f : α → β)
    (p : α → Bool) (l : List α)
    (h : ∀ a ∈ l, g a = if p a = true then some (f a) else none) :
    l.filterMap g = (l.filter p).map f := by
  induction l with
  | nil => rfl
  | cons x xs ih =>
    have htail := ih (fun a ha => h a (List.mem_cons_of_mem x ha))
    by_cases hp : p x = true
    · rw [List.filterMap_cons_some
        (by rw [h x (List.mem_cons_self x xs), if_pos hp]),
        List.filter_cons_of_pos hp, List.map_cons, htail]
    · rw [List.filterMap_cons_none
        (by rw [h x (List.mem_cons_self x xs), if_neg hp]),
        List.filter_cons_of_neg hp, htail]

theorem graph_dict_sorted_complete {M : ℕ → ℕ → ℚ} {labels : List ℕ}
    (hsort : labels.Sorted (· < ·))
    (hzero : ∀ v ∈ labels, M v v = 0)
    (hnz : ∀ u ∈ labels, ∀ v ∈ labels, u ≠ v → M u v ≠ 0)
    {v : ℕ} (hv : v ∈ labels) :
    graph_dict M labels v =
      (labels.filter (fun d => decide (d ≠ v))).map
        (fun d => (M d v, v, d)) := by
  unfold graph_dict
  rw [insertionSort_sorted_eq hsort]
  apply filterMap_eq_map_filter
  intro d hd
  by_cases hdv : d = v
  · subst hdv
    rw [if_pos (hzero d hd), if_neg (by simp)]
  · rw [if_neg (hnz d hd v hv hdv), if_pos (by simpa using hdv)]

theorem labels_filter_ne {labels front back : List ℕ} {v : ℕ}
    (hsort : labels.Sorted (· < ·)) (hsplit : labels = front ++ v :: back) :
    labels.filter (fun d => decide (d ≠ v)) = front ++ back := by
  obtain ⟨h1, h2⟩ := sorted_split_facts hsort hsplit
  rw [hsplit, List.filter_append, List.filter_cons_of_neg (by simp),
    List.filter_eq_self.2 (fun u hu => by
      simpa using ne_of_lt (h1 u hu)),
    List.filter_eq_self.2 (fun u hu => by
      simpa using (ne_of_lt (h2 u hu)).symm)]

theorem labels_filter_gt {labels front back : List ℕ} {v : ℕ}
    (hsort : labels.Sorted (· < ·)) (hsplit : labels = front ++ v :: back) :
    labels.filter (fun u => decide (v < u)) = back := by
  obtain ⟨h1, h2⟩ := sorted_split_facts hsort hsplit
  rw [hsplit, List.filter_append, List.filter_cons_of_neg (by simp),
    List.filter_eq_nil_iff.2 (fun u hu => by
      simpa using not_lt_of_gt (h1 u hu)),
    List.filter_eq_self.2 (fun u hu => by simpa using h2 u hu)]
  rfl

theorem genEdgesAux_sorted_complete {M : ℕ → ℕ → ℚ} {labels : List ℕ}
    (hsort : labels.Sorted (· < ·))
    (hzero : ∀ v ∈ labels, M v v = 0)
    (hnz : ∀ u ∈ labels, ∀ v ∈ labels, u ≠ v → M u v ≠ 0) :
    ∀ (back front : List ℕ), labels = front ++ back →
      genEdgesAux (graph_dict M labels) false back front.length =
        back.flatMap (fun v => (labels.filter (fun u => decide (v < u))).map
          (fun u => (M u v, v, u))) := by
  intro back
  induction back with
  | nil => intro front _; rfl
  | cons v back' ih =>
    intro front hsplit
    have hvlab : v ∈ labels := by
      rw [hsplit]
      exact List.mem_append.2 (Or.inr (List.mem_cons_self v back'))
    have hgd : graph_dict M labels v =
        (front.map (fun d => (M d v, v, d))) ++
          (back'.map (fun d => (M d v, v, d))) := by
      rw [graph_dict_sorted_complete hsort hzero hnz hvlab,
        labels_filter_ne hsort hsplit, List.map_append]
    have hsplit' : labels = (front ++ [v]) ++ back' := by
      rw [hsplit, List.append_assoc]
      rfl
    have hrec := ih (front ++ [v]) hsplit'
    rw [List.length_append, List.length_singleton] at hrec
    rw [genEdgesAux, if_neg (by simp), if_neg (by simp), hgd,
      List.drop_left' (List.length_map front _), hrec,
      List.flatMap_cons, labels_filter_gt hsort hsplit]

theorem generate_edges_undirected_complete {M : ℕ → ℕ → ℚ}
    {labels : List ℕ} (hsort : labels.Sorted (· < ·))
    (hzero : ∀ v ∈ labels, M v v = 0)
    (hnz : ∀ u ∈ labels, ∀ v ∈ labels, u ≠ v → M u v ≠ 0) :
    generate_edges M labels false =
      labels.flatMap (fun v => (labels.filter (fun u => decide (v < u))).map
        (fun u => (M u v, v, u))) := by
  unfold generate_edges vertices
  rw [List.dedup_eq_self.2 (sorted_lt_nodup hsort)]
  exact genEdgesAux_sorted_complete hsort hzero hnz labels [] rfl

theorem generate_edges_head_adj {M : ℕ → ℕ → ℚ} {labels : List ℕ} {v0 : ℕ}
    {vs : List ℕ} (hvert : vertices labels = v0 :: vs) {e : Edge}
    (he : e ∈ graph_dict M labels v0) :
    e ∈ generate_edges M labels false := by
  unfold generate_edges
  rw [hvert, genEdgesAux, if_neg (by simp)]
  exact List.mem_append.2 (Or.inl (by simpa using he))

theorem star_connected {M : ℕ → ℕ → ℚ} {labels : List ℕ}
    (hnz : ∀ u ∈ labels, ∀ v ∈ labels, u ≠ v → M u v ≠ 0) :
    ∀ u ∈ labels, ∀ w ∈ labels,
      connVia (generate_edges M labels false) u w := by
  cases hvert : vertices labels with
  | nil =>
    intro u hu
    exfalso
    have : u ∈ vertices labels := List.mem_dedup.2 hu
    rw [hvert] at this
    exact absurd this (List.not_mem_nil u)
  | cons v0 vs =>
    have hv0 : v0 ∈ labels := by
      have : v0 ∈ vertices labels := by
        rw [hvert]
        exact List.mem_cons_self v0 vs
      exact List.mem_dedup.1 this
    have hstar : ∀ u ∈ labels, u ≠ v0 →
        connVia (generate_edges M labels false) v0 u := by
      intro u hu hune
      have he : ((M u v0, v0, u) : Edge) ∈ graph_dict M labels v0 :=
        graph_dict_mem.2 ⟨u, hu, hnz u hu v0 hv0 hune, rfl⟩
      exact connVia_single (generate_edges_head_adj hvert he)
    intro u hu w hw
    have hto : ∀ x ∈ labels, connVia (generate_edges M labels false) v0 x := by
      intro x hx
      by_cases hxv : x = v0
      · rw [hxv]
        exact Relation.ReflTransGen.refl
      · exact hstar x hx hxv
    exact (connVia_symm (hto u hu)).trans (hto w hw)

theorem connVia_iff_of_mem_iff {t t' : List Edge}
    (h : ∀ e, e ∈ t ↔ e ∈ t') (u v : ℕ) :
    connVia t u v ↔ connVia t' u v :=
  ⟨connVia_mono (fun e he => (h e).1 he),
    connVia_mono (fun e he => (h e).2 he)⟩

theorem labelSet_card (labels : List ℕ) :
    (vertices labels).length = (labelSet labels).card :=
  (List.toFinset_card_of_nodup (List.nodup_dedup labels)).symm

theorem mem_labelSet {labels : List ℕ} {v : ℕ} :
    v ∈ labelSet labels ↔ v ∈ labels := by
  unfold labelSet vertices
  rw [List.mem_toFinset, List.mem_dedup]

theorem heapEdges_sorted (M : ℕ → ℕ → ℚ) (labels : List ℕ) :
    (heapEdges M labels).Sorted edgeLe :=
  List.sorted_insertionSort edgeLe (generate_edges M labels false)

theorem heapEdges_mem {M : ℕ → ℕ → ℚ} {labels : List ℕ} {e : Edge} :
    e ∈ heapEdges M labels ↔ e ∈ generate_edges M labels false :=
  (List.perm_insertionSort edgeLe (generate_edges M labels false)).mem_iff

theorem heapEdges_nodup {M : ℕ → ℕ → ℚ} {labels : List ℕ}
    (hnodup : labels.Nodup) : (heapEdges M labels).Nodup :=
  ((List.perm_insertionSort edgeLe _).nodup_iff).2 (generate_edges_nodup hnodup)

theorem heapEdges_ends {M : ℕ → ℕ → ℚ} {labels : List ℕ} {e : Edge}
    (he : e ∈ heapEdges M labels) :
    e.2.1 ∈ labelSet labels ∧ e.2.2 ∈ labelSet labels := by
  obtain ⟨h1, h2, _, _⟩ := generate_edges_mem (heapEdges_mem.1 he)
  exact ⟨mem_labelSet.2 h1, mem_labelSet.2 h2⟩

theorem heapEdges_ends_ne {M : ℕ → ℕ → ℚ} {labels : List ℕ} {e : Edge}
    (hzero : ∀ v ∈ labels, M v v = 0) (he : e ∈ heapEdges M labels) :
    e.2.1 ≠ e.2.2 := by
  obtain ⟨h1, h2, _, hnz⟩ := generate_edges_mem (heapEdges_mem.1 he)
  intro heq
  rw [heq] at hnz
  exact hnz (hzero _ h2)

theorem kruskal_mst_run (M : ℕ → ℕ → ℚ) (labels : List ℕ)
    (hnodup : labels.Nodup) :
    (∃ t, kruskal_mst M labels = .ok t ∧ t.Nodup ∧
        t.length = (labelSet labels).card - 1 ∧
        (∀ f, f ∈ t ↔ inTstar (heapEdges M labels) f) ∧
        (∀ u, u ∈ labelSet labels → ∀ v, v ∈ labelSet labels →
          connVia (heapEdges M labels) u v)) ∨
      (kruskal_mst M labels = .error .indexError ∧
        ∃ u, u ∈ labelSet labels ∧ ∃ v, v ∈ labelSet labels ∧
          ¬ connVia (heapEdges M labels) u v) := by
  have hcard := labelSet_card labels
  have hkr : kruskal_mst M labels =
      kruskalLoop ((labelSet labels).card + 1) (labelSet labels).card
        (heapEdges M labels) [] (fun v => v) (fun _ => 0) := by
    unfold kruskal_mst heapEdges
    rw [hcard]
  rw [hkr]
  refine kruskalLoop_run (labelSet labels) (heapEdges M labels)
    (heapEdges_sorted M labels) (heapEdges_nodup hnodup)
    (fun e he => heapEdges_ends he) (heapEdges M labels) [] []
    (fun v => v) (fun _ => 0) rfl
    ⟨fun v hv => hv, fun v _ => rfl, fun v h => absurd rfl h⟩ ?_ ?_ ?_
    List.nodup_nil ?_
  · intro u _ v _
    rw [rootD_of_root rfl (labelSet labels).card,
      rootD_of_root rfl (labelSet labels).card]
    constructor
    · rintro rfl
      exact Relation.ReflTransGen.refl
    · exact connVia_nil
  · intro f
    simp only [List.not_mem_nil, false_iff, false_and]
  · exact fun x y => Iff.rfl
  · rw [List.length_nil, Nat.zero_add]
    congr 1
    have himg : (labelSet labels).image
        (rootD (fun v => v) ((labelSet labels).card + 1)) =
        (labelSet labels).image id :=
      Finset.image_congr (fun v _ => rootD_of_root rfl (labelSet labels).card)
    rw [himg, Finset.image_id]

theorem prim_mst_eq_primLoop {M : ℕ → ℕ → ℚ} {labels : List ℕ} {e0 : Edge}
    {es : List Edge} (hE : heapEdges M labels = e0 :: es) :
    prim_mst M labels = primLoop es ((labelSet labels).card + 1)
      (insert e0.2.1 (insert e0.2.2 ∅))
      (labelSet labels \ insert e0.2.1 (insert e0.2.2 ∅)) [e0] := by
  have hE' : List.insertionSort edgeLe (generate_edges M labels false) =
      e0 :: es := hE
  unfold prim_mst
  simp only [hE']
  rw [labelSet_card]
  have hsd : ((labelSet labels).erase e0.2.1).erase e0.2.2 =
      labelSet labels \ insert e0.2.1 (insert e0.2.2 ∅) := by
    have h := sdiff_insert_insert (labelSet labels) ∅ e0.2.1 e0.2.2
    rwa [Finset.sdiff_empty] at h
  rw [show (vertices labels).toFinset = labelSet labels from rfl, hsd]

theorem prim_mst_ok {M : ℕ → ℕ → ℚ} {labels : List ℕ}
    (hnodup : labels.Nodup)
    (hzero : ∀ v ∈ labels, M v v = 0)
    (hconn : ∀ u, u ∈ labelSet labels → ∀ v, v ∈ labelSet labels →
      connVia (heapEdges M labels) u v)
    (hne : heapEdges M labels ≠ []) :
    ∃ t, prim_mst M labels = .ok t ∧ t.Nodup ∧
      t.length + 1 = (labelSet labels).card ∧
      (∀ f ∈ t, inTstar (heapEdges M labels) f) := by
  obtain ⟨e0, es, hE⟩ := List.exists_cons_of_ne_nil hne
  have he0 : e0 ∈ heapEdges M labels := by
    rw [hE]
    exact List.mem_cons_self e0 es
  obtain ⟨h01, h02⟩ := heapEdges_ends he0
  have hd0 : e0.2.1 ≠ e0.2.2 := heapEdges_ends_ne hzero he0
  rw [prim_mst_eq_primLoop hE]
  refine primLoop_run (labelSet labels) (heapEdges M labels) e0 es hE
    (heapEdges_sorted M labels) (heapEdges_nodup hnodup)
    (fun e he => ⟨(heapEdges_ends he).1, (heapEdges_ends he).2,
      heapEdges_ends_ne hzero he⟩) hconn
    ((labelSet labels).card + 1) (insert e0.2.1 (insert e0.2.2 ∅)) [e0]
    ?_ ?_ ?_ ?_ ?_ ?_ ?_ ?_ ?_
  · have := Finset.card_le_card
      (Finset.sdiff_subset (s := labelSet labels)
        (t := insert e0.2.1 (insert e0.2.2 ∅)))
    omega
  · exact Finset.insert_subset_iff.2 ⟨h01,
      Finset.insert_subset_iff.2 ⟨h02, Finset.empty_subset _⟩⟩
  · exact ⟨e0.2.1, Finset.mem_insert_self _ _⟩
  · intro f hf
    have hfe : f = e0 := by simpa using hf
    subst hfe
    exact ⟨Finset.mem_insert_self _ _,
      Finset.mem_insert_of_mem (Finset.mem_insert_self _ _)⟩
  · intro f hf
    have hfe : f = e0 := by simpa using hf
    rw [hfe]
    refine ⟨he0, ?_⟩
    have hsm : smallerEdges (heapEdges M labels) e0 = [] :=
      @smallerEdges_of_sorted (heapEdges M labels) [] es e0
        (heapEdges_sorted M labels) (heapEdges_nodup hnodup)
        (by rw [List.nil_append]; exact hE)
    rw [hsm]
    intro hc
    exact hd0 (connVia_nil hc)
  · exact List.nodup_singleton e0
  · rw [List.length_singleton, Finset.card_insert_of_not_mem (by simpa using hd0)]
    simp
  · exact Finset.mem_insert_self _ _
  · exact Finset.mem_insert_of_mem (Finset.mem_insert_self _ _)

theorem prim_mst_error_of_nocross {M : ℕ → ℕ → ℚ} {labels : List ℕ}
    {A B : Finset ℕ}
    (hVAB : labelSet labels = A ∪ B) (hdisj : Disjoint A B)
    (hAne : A.Nonempty) (hBne : B.Nonempty)
    (hnocross : ∀ e ∈ heapEdges M labels,
      ¬(e.2.1 ∈ A ∧ e.2.2 ∈ B) ∧ ¬(e.2.1 ∈ B ∧ e.2.2 ∈ A)) :
    prim_mst M labels = .error .indexError := by
  cases hE : heapEdges M labels with
  | nil =>
    have hE' : List.insertionSort edgeLe (generate_edges M labels false) =
        [] := hE
    unfold prim_mst
    simp only [hE']
  | cons e0 es =>
    have he0 : e0 ∈ heapEdges M labels := by
      rw [hE]
      exact List.mem_cons_self e0 es
    obtain ⟨h01, h02⟩ := heapEdges_ends he0
    obtain ⟨hnc1, hnc2⟩ := hnocross e0 he0
    have h01' : e0.2.1 ∈ A ∪ B := by rw [← hVAB]; exact h01
    have h02' : e0.2.2 ∈ A ∪ B := by rw [← hVAB]; exact h02
    have hfuel : (labelSet labels \
        insert e0.2.1 (insert e0.2.2 ∅)).card < (labelSet labels).card + 1 := by
      have := Finset.card_le_card
        (Finset.sdiff_subset (s := labelSet labels)
          (t := insert e0.2.1 (insert e0.2.2 ∅)))
      omega
    rw [prim_mst_eq_primLoop hE]
    rcases Finset.mem_union.1 h01' with hA1 | hB1
    · have hA2 : e0.2.2 ∈ A := by
        rcases Finset.mem_union.1 h02' with h | h
        · exact h
        · exact absurd ⟨hA1, h⟩ hnc1
      exact primLoop_disconnected (labelSet labels) A B (heapEdges M labels)
        e0 es hE (fun e he => heapEdges_ends he) hVAB hdisj hBne hnocross
        ((labelSet labels).card + 1) _ [e0] hfuel
        (Finset.insert_subset_iff.2 ⟨hA1,
          Finset.insert_subset_iff.2 ⟨hA2, Finset.empty_subset _⟩⟩)
    · have hB2 : e0.2.2 ∈ B := by
        rcases Finset.mem_union.1 h02' with h | h
        · exact absurd ⟨hB1, h⟩ hnc2
        · exact h
      exact primLoop_disconnected (labelSet labels) B A (heapEdges M labels)
        e0 es hE (fun e he => heapEdges_ends he)
        (by rw [hVAB, Finset.union_comm]) hdisj.symm hAne
        (fun e he => ⟨(hnocross e he).2, (hnocross e he).1⟩)
        ((labelSet labels).card + 1) _ [e0] hfuel
        (Finset.insert_subset_iff.2 ⟨hB1,
          Finset.insert_subset_iff.2 ⟨hB2, Finset.empty_subset _⟩⟩)

theorem prim_mst_error {M : ℕ → ℕ → ℚ} {labels : List ℕ} {A B : Finset ℕ}
    (hVAB : labelSet labels = A ∪ B) (hdisj : Disjoint A B)
    (hAne : A.Nonempty) (hBne : B.Nonempty)
    (hcross : ∀ a ∈ A, ∀ b ∈ B, M a b = 0 ∧ M b a = 0) :
    prim_mst M labels = .error .indexError := by
  refine prim_mst_error_of_nocross hVAB hdisj hAne hBne ?_
  intro e he
  obtain ⟨_, _, _, hnz⟩ := generate_edges_mem (heapEdges_mem.1 he)
  constructor
  · rintro ⟨ha, hb⟩
    exact hnz (hcross e.2.1 ha e.2.2 hb).2
  · rintro ⟨hb, ha⟩
    exact hnz (hcross e.2.2 ha e.2.1 hb).1

theorem kruskal_mst_error {M : ℕ → ℕ → ℚ} {labels : List ℕ} {A B : Finset ℕ}
    (hnodup : labels.Nodup)
    (hVAB : labelSet labels = A ∪ B) (hdisj : Disjoint A B)
    (hAne : A.Nonempty) (hBne : B.Nonempty)
    (hcross : ∀ a ∈ A, ∀ b ∈ B, M a b = 0 ∧ M b a = 0) :
    kruskal_mst M labels = .error .indexError := by
  rcases kruskal_mst_run M labels hnodup with ⟨t, _, _, _, _, hconn⟩ |
    ⟨herr, _⟩
  · exfalso
    obtain ⟨a, ha⟩ := hAne
    obtain ⟨b, hb⟩ := hBne
    have haV : a ∈ labelSet labels := by
      rw [hVAB]
      exact Finset.mem_union_left _ ha
    have hbV : b ∈ labelSet labels := by
      rw [hVAB]
      exact Finset.mem_union_right _ hb
    have hbA : b ∉ A := Finset.disjoint_right.1 hdisj hb
    obtain ⟨e, heE, hcrossE⟩ :=
      connVia_crossing (hconn a haV b hbV) ha hbA
    obtain ⟨h1, h2, _, hnz⟩ := generate_edges_mem (heapEdges_mem.1 heE)
    have h1' : e.2.1 ∈ A ∪ B := by
      rw [← hVAB]
      exact mem_labelSet.2 h1
    have h2' : e.2.2 ∈ A ∪ B := by
      rw [← hVAB]
      exact mem_labelSet.2 h2
    rcases hcrossE with ⟨hA1, hA2⟩ | ⟨hA1, hA2⟩
    · have hB2 : e.2.2 ∈ B := (Finset.mem_union.1 h2').resolve_left hA2
      exact hnz (hcross _ hA1 _ hB2).2
    · have hB2 : e.2.1 ∈ B := (Finset.mem_union.1 h1').resolve_left hA2
      exact hnz (hcross _ hA1 _ hB2).1
  · exact herr

theorem kruskal_mst_ok {M : ℕ → ℕ → ℚ} {labels : List ℕ}
    (hnodup : labels.Nodup)
    (hconn : ∀ u, u ∈ labelSet labels → ∀ v, v ∈ labelSet labels →
      connVia (heapEdges M labels) u v) :
    ∃ t, kruskal_mst M labels = .ok t ∧ t.Nodup ∧
      t.length = (labelSet labels).card - 1 ∧
      (∀ f, f ∈ t ↔ inTstar (heapEdges M labels) f) := by
  rcases kruskal_mst_run M labels hnodup with
    ⟨t, hok, hn, hl, hc, _⟩ | ⟨_, u, hu, v, hv, hnc⟩
  · exact ⟨t, hok, hn, hl, hc⟩
  · exact absurd (hconn u hu v hv) hnc

theorem total_weight_eq_of_toFinset {t t' : List Edge} (hn : t.Nodup)
    (hn' : t'.Nodup) (h : t.toFinset = t'.toFinset) :
    total_weight t = total_weight t' := by
  unfold total_weight
  rw [← List.sum_toFinset _ hn, ← List.sum_toFinset _ hn', h]

theorem exists_two_distinct {labels : List ℕ} (hnodup : labels.Nodup)
    (hn2 : 2 ≤ labels.length) :
    ∃ a ∈ labels, ∃ b ∈ labels, a ≠ b := by
  cases labels with
  | nil => simp at hn2
  | cons a t =>
    cases t with
    | nil => simp at hn2
    | cons b t' =>
      refine ⟨a, List.mem_cons_self _ _, b,
        List.mem_cons_of_mem _ (List.mem_cons_self _ _), ?_⟩
      intro h
      exact (List.nodup_cons.1 hnodup).1 (h ▸ List.mem_cons_self b t')

theorem heapEdges_ne_nil_of_conn {M : ℕ → ℕ → ℚ} {labels : List ℕ}
    (hnodup : labels.Nodup) (hn2 : 2 ≤ labels.length)
    (hEconn : ∀ u, u ∈ labelSet labels → ∀ v, v ∈ labelSet labels →
      connVia (heapEdges M labels) u v) :
    heapEdges M labels ≠ [] := by
  obtain ⟨a, ha, b, hb, hab⟩ := exists_two_distinct hnodup hn2
  have hc := hEconn a (mem_labelSet.2 ha) b (mem_labelSet.2 hb)
  rcases hc.cases_head with heq | ⟨c, hstep, _⟩
  · exact absurd heq hab
  · obtain ⟨e, he, _⟩ := hstep
    intro hnil
    rw [hnil] at he
    exact List.not_mem_nil e he

theorem labelSet_card_of_nodup {labels : List ℕ} (h : labels.Nodup) :
    (labelSet labels).card = labels.length := by
  unfold labelSet vertices
  rw [List.dedup_eq_self.2 h]
  exact List.toFinset_card_of_nodup h

theorem dedup_toFinset_eq (l : List ℕ) : l.dedup.toFinset = l.toFinset := by
  ext x
  simp [List.mem_toFinset, List.mem_dedup]

/-- Claim C1 (amended): for a well-formed (symmetric, non-negative)
distance matrix over at least two distinct labels, with zero diagonal and
every off-diagonal entry non-zero, both `kruskal_mst` and `prim_mst` return
an edge set, and the two edge sets have identical total weight.  The
zero-diagonal condition is forced by the counterexample: with a positive
diagonal entry Prim seeds its tree with a self-loop that Kruskal discards.
The all-off-diagonal-non-zero condition is forced because a zero
off-diagonal entry can make the undirected enumeration lose an edge, after
which both algorithms raise instead of returning an edge set. -/
theorem c1_total_weight_eq (M : ℕ → ℕ → ℚ) (labels : List ℕ)
    (hnodup : labels.Nodup) (hn2 : 2 ≤ labels.length)
    (hsym : ∀ u ∈ labels, ∀ v ∈ labels, M u v = M v u)
    (hnonneg : ∀ u ∈ labels, ∀ v ∈ labels, 0 ≤ M u v)
    (hzero : ∀ v ∈ labels, M v v = 0)
    (hnz : ∀ u ∈ labels, ∀ v ∈ labels, u ≠ v → M u v ≠ 0) :
    ∃ tk tp, kruskal_mst M labels = .ok tk ∧ prim_mst M labels = .ok tp ∧
      total_weight tk = total_weight tp := by
  have hEconn : ∀ u, u ∈ labelSet labels → ∀ v, v ∈ labelSet labels →
      connVia (heapEdges M labels) u v := by
    intro u hu v hv
    exact connVia_mono (fun e he => heapEdges_mem.2 he)
      (star_connected hnz u (mem_labelSet.1 hu) v (mem_labelSet.1 hv))
  obtain ⟨tk, hkok, hknd, hklen, hkchar⟩ := kruskal_mst_ok hnodup hEconn
  obtain ⟨tp, hpok, hpnd, hplen, hpchar⟩ := prim_mst_ok hnodup hzero hEconn
    (heapEdges_ne_nil_of_conn hnodup hn2 hEconn)
  refine ⟨tk, tp, hkok, hpok, ?_⟩
  have hfin : tp.toFinset = tk.toFinset := by
    have hsub : tp.toFinset ⊆ tk.toFinset := by
      intro e he
      rw [List.mem_toFinset] at he ⊢
      exact (hkchar e).2 (hpchar e he)
    apply Finset.eq_of_subset_of_card_le hsub
    rw [List.toFinset_card_of_nodup hknd, List.toFinset_card_of_nodup hpnd]
    omega
  exact total_weight_eq_of_toFinset hknd hpnd hfin.symm

/-- Claim C2 (amended): on a disconnected input — the labels split into two
nonempty sides with every cross entry zero — both MST functions fail, but
with the untyped pop-from-empty `IndexError` of `heapq.heappop` rather than
the `DisconnectedGraph` error the specification postulates; neither ever
returns a (partial) tree. -/
theorem c2_disconnected_error (M : ℕ → ℕ → ℚ) (labels : List ℕ)
    (A B : Finset ℕ) (hnodup : labels.Nodup)
    (hVAB : labels.toFinset = A ∪ B) (hdisj : Disjoint A B)
    (hAne : A.Nonempty) (hBne : B.Nonempty)
    (hcross : ∀ a ∈ A, ∀ b ∈ B, M a b = 0 ∧ M b a = 0) :
    kruskal_mst M labels = .error .indexError ∧
      prim_mst M labels = .error .indexError := by
  have hVAB' : labelSet labels = A ∪ B := by
    unfold labelSet vertices
    rw [dedup_toFinset_eq]
    exact hVAB
  exact ⟨kruskal_mst_error hnodup hVAB' hdisj hAne hBne hcross,
    prim_mst_error hVAB' hdisj hAne hBne hcross⟩

/-- Claim C3 (amended): for a symmetric zero-diagonal matrix over `n ≥ 2`
distinct labels whose off-diagonal entries are all non-zero, both
`kruskal_mst` and `prim_mst` return exactly `n - 1` edges.  The
strengthening from "connected non-zero weights" to "all off-diagonal
weights non-zero" is forced by the counterexample: a single zero
off-diagonal entry can make the undirected edge enumeration lose a needed
edge, after which both algorithms raise instead of returning a tree. -/
theorem c3_tree_sizes (M : ℕ → ℕ → ℚ) (labels : List ℕ)
    (hnodup : labels.Nodup) (hn2 : 2 ≤ labels.length)
    (hsym : ∀ u ∈ labels, ∀ v ∈ labels, M u v = M v u)
    (hzero : ∀ v ∈ labels, M v v = 0)
    (hnz : ∀ u ∈ labels, ∀ v ∈ labels, u ≠ v → M u v ≠ 0) :
    (∃ t, kruskal_mst M labels = .ok t ∧ t.length = labels.length - 1) ∧
      (∃ t, prim_mst M labels = .ok t ∧ t.length = labels.length - 1) := by
  have hEconn : ∀ u, u ∈ labelSet labels → ∀ v, v ∈ labelSet labels →
      connVia (heapEdges M labels) u v := by
    intro u hu v hv
    exact connVia_mono (fun e he => heapEdges_mem.2 he)
      (star_connected hnz u (mem_labelSet.1 hu) v (mem_labelSet.1 hv))
  have hV := labelSet_card_of_nodup hnodup
  obtain ⟨tk, hkok, _, hklen, _⟩ := kruskal_mst_ok hnodup hEconn
  obtain ⟨tp, hpok, _, hplen, _⟩ := prim_mst_ok hnodup hzero hEconn
    (heapEdges_ne_nil_of_conn hnodup hn2 hEconn)
  exact ⟨⟨tk, hkok, by omega⟩, ⟨tp, hpok, by omega⟩⟩

/-- Counterexample to claim C1 as stated: `mSelfLoop` is square, symmetric,
non-negative and connected, yet Kruskal's total weight is `1` while Prim's
is `11/10` (Prim seeds with the self-loop `(1/10, 0, 0)`). -/
theorem c1_counterexample :
    (∀ u ∈ [0, 1], ∀ v ∈ [0, 1], mSelfLoop u v = mSelfLoop v u) ∧
      (∀ u ∈ [0, 1], ∀ v ∈ [0, 1], 0 ≤ mSelfLoop u v) ∧
      matConnected mSelfLoop [0, 1] ∧
      (kruskal_mst mSelfLoop [0, 1]).map total_weight = .ok 1 ∧
      (prim_mst mSelfLoop [0, 1]).map total_weight = .ok (11 / 10) ∧
      (Except.ok (1 : ℚ) : Except PyErr ℚ) ≠ .ok (11 / 10) := by
  refine ⟨by with_unfolding_all decide, by with_unfolding_all decide, ?_,
    by with_unfolding_all decide, by with_unfolding_all decide,
    by with_unfolding_all decide⟩
  have hstep01 : matStep mSelfLoop [0, 1] 0 1 :=
    ⟨by decide, by decide, by decide, by with_unfolding_all decide⟩
  have hstep10 : matStep mSelfLoop [0, 1] 1 0 :=
    ⟨by decide, by decide, by decide, by with_unfolding_all decide⟩
  intro u hu v hv
  have hu' : u = 0 ∨ u = 1 := by simpa using hu
  have hv' : v = 0 ∨ v = 1 := by simpa using hv
  rcases hu' with rfl | rfl <;> rcases hv' with rfl | rfl
  · exact .refl
  · exact .single hstep01
  · exact .single hstep10
  · exact .refl

/-- Witness for the amended claim C1 at the 2-label path matrix. -/
theorem c1_total_weight_eq_witness :
    (([0, 1] : List ℕ).Nodup ∧ 2 ≤ ([0, 1] : List ℕ).length ∧
      (∀ u ∈ [0, 1], ∀ v ∈ [0, 1], mPath2 u v = mPath2 v u) ∧
      (∀ u ∈ [0, 1], ∀ v ∈ [0, 1], 0 ≤ mPath2 u v) ∧
      (∀ v ∈ [0, 1], mPath2 v v = 0) ∧
      (∀ u ∈ [0, 1], ∀ v ∈ [0, 1], u ≠ v → mPath2 u v ≠ 0)) ∧
    ∃ tk tp, kruskal_mst mPath2 [0, 1] = .ok tk ∧
      prim_mst mPath2 [0, 1] = .ok tp ∧
      total_weight tk = total_weight tp :=
  ⟨⟨by decide, by decide, by with_unfolding_all decide,
    by with_unfolding_all decide, by with_unfolding_all decide,
    by with_unfolding_all decide⟩,
    c1_total_weight_eq mPath2 [0, 1] (by decide) (by decide)
      (by with_unfolding_all decide) (by with_unfolding_all decide)
      (by with_unfolding_all decide) (by with_unfolding_all decide)⟩

/-- Counterexample to claim C2 as stated: on the all-zero matrix (two
components, no inter-component non-zero edge) both functions fail with the
untyped `IndexError` of an exhausted heap, not with `DisconnectedGraph`. -/
theorem c2_counterexample :
    ([0, 1] : List ℕ).toFinset = {0} ∪ {1} ∧
      (∀ a ∈ ({0} : Finset ℕ), ∀ b ∈ ({1} : Finset ℕ),
        mZero2 a b = 0 ∧ mZero2 b a = 0) ∧
      kruskal_mst mZero2 [0, 1] = .error .indexError ∧
      prim_mst mZero2 [0, 1] = .error .indexError ∧
      (Except.error .indexError : Except PyErr (List Edge)) ≠
        .error .disconnectedGraph := by
  with_unfolding_all decide

/-- Witness for the amended claim C2 at the all-zero 2-label matrix. -/
theorem c2_disconnected_error_witness :
    (([0, 1] : List ℕ).Nodup ∧ ([0, 1] : List ℕ).toFinset = {0} ∪ {1} ∧
      Disjoint ({0} : Finset ℕ) {1} ∧ ({0} : Finset ℕ).Nonempty ∧
      ({1} : Finset ℕ).Nonempty ∧
      (∀ a ∈ ({0} : Finset ℕ), ∀ b ∈ ({1} : Finset ℕ),
        mZero2 a b = 0 ∧ mZero2 b a = 0)) ∧
    (kruskal_mst mZero2 [0, 1] = .error .indexError ∧
      prim_mst mZero2 [0, 1] = .error .indexError) :=
  ⟨⟨by decide, by decide, by decide, ⟨0, by decide⟩, ⟨1, by decide⟩,
    by with_unfolding_all decide⟩,
    c2_disconnected_error mZero2 [0, 1] {0} {1} (by decide) (by decide)
      (by decide) ⟨0, by decide⟩ ⟨1, by decide⟩
      (by with_unfolding_all decide)⟩

/-- Counterexample to claim C3 as stated: `mLostEdge` is symmetric with
zero diagonal over `3 ≥ 2` vertices and its non-zero off-diagonal weights
are connected (a path through vertex `2`), yet both MST functions raise an
`IndexError` instead of returning `n - 1 = 2` edges — the undirected edge
enumeration drops the edge between `1` and `2`. -/
theorem c3_counterexample :
    ([0, 1, 2] : List ℕ).Nodup ∧ 2 ≤ ([0, 1, 2] : List ℕ).length ∧
      (∀ u ∈ [0, 1, 2], ∀ v ∈ [0, 1, 2], mLostEdge u v = mLostEdge v u) ∧
      (∀ v ∈ [0, 1, 2], mLostEdge v v = 0) ∧
      matConnected mLostEdge [0, 1, 2] ∧
      kruskal_mst mLostEdge [0, 1, 2] = .error .indexError ∧
      prim_mst mLostEdge [0, 1, 2] = .error .indexError := by
  refine ⟨by decide, by decide, by with_unfolding_all decide,
    by with_unfolding_all decide, ?_, by with_unfolding_all decide,
    by with_unfolding_all decide⟩
  have h02 : matStep mLostEdge [0, 1, 2] 0 2 :=
    ⟨by decide, by decide, by decide, by with_unfolding_all decide⟩
  have h12 : matStep mLostEdge [0, 1, 2] 1 2 :=
    ⟨by decide, by decide, by decide, by with_unfolding_all decide⟩
  have h20 : matStep mLostEdge [0, 1, 2] 2 0 :=
    ⟨by decide, by decide, by decide, by with_unfolding_all decide⟩
  have h21 : matStep mLostEdge [0, 1, 2] 2 1 :=
    ⟨by decide, by decide, by decide, by with_unfolding_all decide⟩
  intro u hu v hv
  have hu' : u = 0 ∨ u = 1 ∨ u = 2 := by simpa using hu
  have hv' : v = 0 ∨ v = 1 ∨ v = 2 := by simpa using hv
  rcases hu' with rfl | rfl | rfl <;> rcases hv' with rfl | rfl | rfl
  · exact .refl
  · exact .tail (.single h02) h21
  · exact .single h02
  · exact .tail (.single h12) h20
  · exact .refl
  · exact .single h12
  · exact .single h20
  · exact .single h21
  · exact .refl

/-- Witness for the amended claim C3 at the 2-label path matrix. -/
theorem c3_tree_sizes_witness :
    (([0, 1] : List ℕ).Nodup ∧ 2 ≤ ([0, 1] : List ℕ).length ∧
      (∀ u ∈ [0, 1], ∀ v ∈ [0, 1], mPath2 u v = mPath2 v u) ∧
      (∀ v ∈ [0, 1], mPath2 v v = 0) ∧
      (∀ u ∈ [0, 1], ∀ v ∈ [0, 1], u ≠ v → mPath2 u v ≠ 0)) ∧
    ((∃ t, kruskal_mst mPath2 [0, 1] = .ok t ∧
        t.length = ([0, 1] : List ℕ).length - 1) ∧
      (∃ t, prim_mst mPath2 [0, 1] = .ok t ∧
        t.length = ([0, 1] : List ℕ).length - 1)) :=
  ⟨⟨by decide, by decide, by with_unfolding_all decide,
    by with_unfolding_all decide, by with_unfolding_all decide⟩,
    c3_tree_sizes mPath2 [0, 1] (by decide) (by decide)
      (by with_unfolding_all decide) (by with_unfolding_all decide)
      (by with_unfolding_all decide)⟩

/-- Claim C5 (amended): `Graph.__init__` performs no validation at all: for
every input — square or not, label sets mismatched between axes or not,
negative weights included — construction succeeds, and the produced dict has
the (deduplicated) column labels as keys and, at key `v`, exactly the
triples `(M d v, v, d)` for the non-zero rows `d` of column `v`. -/
theorem c5_no_validation (M : ℕ → ℕ → ℚ) (rows cols : List ℕ) :
    ∃ g, graphInit M rows cols = .ok g ∧
      g.map Prod.fst = vertices cols ∧
      ∀ p ∈ g, ∀ e, e ∈ p.2 ↔
        ∃ d ∈ rows, M d p.1 ≠ 0 ∧ e = (M d p.1, p.1, d) := by
  refine ⟨_, rfl, ?_, ?_⟩
  · unfold vertices
    rw [List.map_map]
    exact List.map_id cols.dedup
  · intro p hp e
    obtain ⟨v, _, rfl⟩ := List.mem_map.1 hp
    exact graph_dict_mem

/-- Counterexample to claim C5 as stated: on the repository's own
`few_distances` fixture, which contains the negative weight `-7`,
construction does not fail with `MalformedInput` — it produces a graph
(the one the repository's `test_graphs` asserts the contents of). -/
theorem c5_counterexample :
    mNeg 2 0 < 0 ∧
      graphInit mNeg [0, 1, 2] [0, 1, 2] =
        .ok [(0, [(1, 0, 0), (4, 0, 1), (-7, 0, 2)]),
          (1, [(2, 1, 0), (5, 1, 1), (-8, 1, 2)]),
          (2, [(3, 2, 0), (6, 2, 1), (-9, 2, 2)])] ∧
      ∀ err, graphInit mNeg [0, 1, 2] [0, 1, 2] ≠ .error err := by
  refine ⟨by with_unfolding_all decide, by with_unfolding_all decide, ?_⟩
  intro err
  simp [graphInit]

/-- Claim C8 (amended): on every single-vertex matrix `kruskal_mst` returns
the empty edge set, while `prim_mst` raises the pop-from-empty `IndexError`
whenever the self-distance is zero (the heap it seeds from is empty). -/
theorem c8_single_vertex (M : ℕ → ℕ → ℚ) (v : ℕ) :
    kruskal_mst M [v] = .ok [] ∧
      (M v v = 0 → prim_mst M [v] = .error .indexError) := by
  have hv : vertices [v] = [v] := by simp [vertices]
  constructor
  · unfold kruskal_mst
    rw [hv]
    cases hES : List.insertionSort edgeLe (generate_edges M [v] false) with
    | nil => rw [kruskalLoop, if_neg (by simp)]
    | cons e es => rw [kruskalLoop, if_neg (by simp)]
  · intro hz
    have hgd : graph_dict M [v] v = [] := by
      have hsing : List.insertionSort (fun a b => a ≤ b) [v] = [v] := rfl
      unfold graph_dict
      rw [hsing, List.filterMap_cons_none (by rw [if_pos hz]),
        List.filterMap_nil]
    have hgen : generate_edges M [v] false = [] := by
      unfold generate_edges
      rw [hv, genEdgesAux, hgd]
      simp [genEdgesAux]
    unfold prim_mst
    rw [hgen]
    rfl

/-- Counterexample to claim C8 as stated: on the single-vertex zero matrix
`prim_mst` does not return the empty edge set — it raises the untyped
pop-from-empty `IndexError` (while `kruskal_mst` does return `[]`). -/
theorem c8_counterexample :
    kruskal_mst mZero1 [0] = .ok [] ∧
      prim_mst mZero1 [0] = .error .indexError ∧
      (Except.error .indexError : Except PyErr (List Edge)) ≠ .ok [] := by
  with_unfolding_all decide

/-- Witness for the amended claim C8 at the single-vertex zero matrix. -/
theorem c8_single_vertex_witness :
    mZero1 0 0 = 0 ∧ kruskal_mst mZero1 [0] = .ok [] ∧
      prim_mst mZero1 [0] = .error .indexError :=
  ⟨by with_unfolding_all decide, (c8_single_vertex mZero1 0).1,
    (c8_single_vertex mZero1 0).2 (by with_unfolding_all decide)⟩

/-- Claim C9 (amended): `vertices()` returns exactly the column labels in
matrix order with no duplicates, and each vertex's stored adjacency list
holds exactly the triples `(weight, vertex, other)` of the non-zero entries
of that vertex's column — but in *sorted* row-label order (the constructor's
`groupby(level=0)` sorts its keys), which coincides with matrix order
exactly when the matrix labels are ascending. -/
theorem c9_vertices_adjacency (M : ℕ → ℕ → ℚ) (labels : List ℕ)
    (hnodup : labels.Nodup) :
    vertices labels = labels ∧ (vertices labels).Nodup ∧
      (∀ v e, e ∈ graph_dict M labels v ↔
        ∃ d ∈ labels, M d v ≠ 0 ∧ e = (M d v, v, d)) ∧
      (labels.Sorted (· < ·) → ∀ v, graph_dict M labels v =
        labels.filterMap
          (fun d => if M d v = 0 then none else some (M d v, v, d))) := by
  refine ⟨List.dedup_eq_self.2 hnodup, List.nodup_dedup labels,
    fun v e => graph_dict_mem, ?_⟩
  intro hsort v
  unfold graph_dict
  rw [insertionSort_sorted_eq hsort]

/-- Witness for the amended claim C9 on a 2-label matrix. -/
theorem c9_vertices_adjacency_witness :
    ([0, 1] : List ℕ).Nodup ∧
      (vertices [0, 1] = [0, 1] ∧ (vertices [0, 1]).Nodup ∧
        (∀ v e, e ∈ graph_dict mPath2 [0, 1] v ↔
          ∃ d ∈ [0, 1], mPath2 d v ≠ 0 ∧ e = (mPath2 d v, v, d)) ∧
        (([0, 1] : List ℕ).Sorted (· < ·) → ∀ v,
          graph_dict mPath2 [0, 1] v = [0, 1].filterMap
            (fun d => if mPath2 d v = 0 then none
              else some (mPath2 d v, v, d)))) :=
  ⟨by decide, c9_vertices_adjacency mPath2 [0, 1] (by decide)⟩

/-- Counterexample to claim C9 as stated: with matrix label order `[1, 0]`
the stored adjacency list of vertex `1` is in sorted label order
`[(1, 1, 0), (9, 1, 1)]`, not in the matrix order the claim asserts
(which would put the diagonal entry `(9, 1, 1)` first). -/
theorem c9_counterexample :
    graph_dict mUnsorted [1, 0] 1 = [(1, 1, 0), (9, 1, 1)] ∧
      [1, 0].filterMap (fun d => if mUnsorted d 1 = 0 then none
        else some (mUnsorted d 1, 1, d)) = [(9, 1, 1), (1, 1, 0)] ∧
      graph_dict mUnsorted [1, 0] 1 ≠
        [1, 0].filterMap (fun d => if mUnsorted d 1 = 0 then none
          else some (mUnsorted d 1, 1, d)) := by
  with_unfolding_all decide

theorem genEdgesAux_directed {g : ℕ → List Edge} :
    ∀ (vs : List ℕ) (i : ℕ), genEdgesAux g true vs i = vs.flatMap g := by
  intro vs
  induction vs with
  | nil => intro i; rfl
  | cons v vs' ih =>
    intro i
    rw [genEdgesAux, List.flatMap_cons]
    simp [ih]

theorem generate_edges_directed_eq {M : ℕ → ℕ → ℚ} {labels : List ℕ}
    (hnodup : labels.Nodup) :
    generate_edges M labels true = labels.flatMap (graph_dict M labels) := by
  unfold generate_edges vertices
  rw [List.dedup_eq_self.2 hnodup, genEdgesAux_directed]

theorem filter_ne_length {labels : List ℕ} {v : ℕ}
    (hsort : labels.Sorted (· < ·)) (hv : v ∈ labels) :
    (labels.filter (fun d => decide (d ≠ v))).length = labels.length - 1 := by
  obtain ⟨front, back, hsplit⟩ := List.append_of_mem hv
  rw [labels_filter_ne hsort hsplit, hsplit]
  simp only [List.length_append, List.length_cons]
  omega

theorem mul_self_sub (n : ℕ) : n * (n - 1) = n * n - n := by
  cases n with
  | zero => rfl
  | succ k =>
    have h2 : (k + 1) * (k + 1) = (k + 1) * k + (k + 1) := Nat.mul_succ (k + 1) k
    have h3 : (k + 1) - 1 = k := rfl
    rw [h3, h2]
    omega

theorem sum_map_const {α : Type} (l : List α) (c : ℕ) :
    (l.map (fun _ => c)).sum = l.length * c := by
  induction l with
  | nil => simp
  | cons x xs ih =>
    rw [List.map_cons, List.sum_cons, ih, List.length_cons]
    have h : (xs.length + 1) * c = xs.length * c + c := Nat.succ_mul xs.length c
    omega

theorem generate_edges_directed_length {M : ℕ → ℕ → ℚ} {labels : List ℕ}
    (hsort : labels.Sorted (· < ·))
    (hzero : ∀ v ∈ labels, M v v = 0)
    (hnz : ∀ u ∈ labels, ∀ v ∈ labels, u ≠ v → M u v ≠ 0) :
    (generate_edges M labels true).length =
      labels.length * labels.length - labels.length := by
  rw [generate_edges_directed_eq (sorted_lt_nodup hsort), List.length_flatMap]
  simp only [Function.comp_def]
  have hmap : labels.map (fun v => (graph_dict M labels v).length) =
      labels.map (fun _ => labels.length - 1) := by
    apply List.map_congr_left
    intro v hv
    rw [graph_dict_sorted_complete hsort hzero hnz hv, List.length_map,
      filter_ne_length hsort hv]
  rw [hmap, sum_map_const, mul_self_sub]

theorem generate_edges_directed_mem {M : ℕ → ℕ → ℚ} {labels : List ℕ}
    (hnodup : labels.Nodup) {e : Edge} :
    e ∈ generate_edges M labels true ↔
      ∃ v ∈ labels, ∃ d ∈ labels, M d v ≠ 0 ∧ e = (M d v, v, d) := by
  rw [generate_edges_directed_eq hnodup, List.mem_flatMap]
  constructor
  · rintro ⟨v, hv, hev⟩
    obtain ⟨d, hd, hz, rfl⟩ := graph_dict_mem.1 hev
    exact ⟨v, hv, d, hd, hz, rfl⟩
  · rintro ⟨v, hv, d, hd, hz, rfl⟩
    exact ⟨v, hv, graph_dict_mem.2 ⟨d, hd, hz, rfl⟩⟩

theorem succ_mul_self (n : ℕ) : (n + 1) * n = n * (n - 1) + 2 * n := by
  cases n with
  | zero => rfl
  | succ k =>
    have ha : (k + 1 + 1) * (k + 1) = (k + 1) * (k + 1) + (k + 1) :=
      Nat.succ_mul (k + 1) (k + 1)
    have hb : (k + 1) * (k + 1) = (k + 1) * k + (k + 1) :=
      Nat.mul_succ (k + 1) k
    have hc : (k + 1) - 1 = k := rfl
    rw [hc, ha, hb]
    omega

theorem pairs_len_sum : ∀ (labels : List ℕ), labels.Sorted (· < ·) →
    2 * (labels.map
        (fun v => (labels.filter (fun u => decide (v < u))).length)).sum =
      labels.length * (labels.length - 1) := by
  intro labels
  induction labels with
  | nil => intro _; rfl
  | cons v rest ih =>
    intro hsort
    have hvr : ∀ u ∈ rest, v < u :=
      fun u hu => List.rel_of_sorted_cons hsort u hu
    have hrest : rest.Sorted (· < ·) := hsort.of_cons
    have hhead : (v :: rest).filter (fun u => decide (v < u)) = rest := by
      rw [List.filter_cons_of_neg (by simp),
        List.filter_eq_self.2 (fun u hu => by simpa using hvr u hu)]
    have htail : rest.map
        (fun w => ((v :: rest).filter (fun u => decide (w < u))).length) =
        rest.map (fun w => (rest.filter (fun u => decide (w < u))).length) := by
      apply List.map_congr_left
      intro w hw
      rw [List.filter_cons_of_neg (by simpa using lt_asymm (hvr w hw))]
    simp only [List.map_cons, List.sum_cons]
    rw [hhead, htail, List.length_cons]
    have hIH := ih hrest
    have h1 : rest.length + 1 - 1 = rest.length := rfl
    rw [h1]
    have h2 := succ_mul_self rest.length
    omega

theorem generate_edges_undirected_length {M : ℕ → ℕ → ℚ} {labels : List ℕ}
    (hsort : labels.Sorted (· < ·))
    (hzero : ∀ v ∈ labels, M v v = 0)
    (hnz : ∀ u ∈ labels, ∀ v ∈ labels, u ≠ v → M u v ≠ 0) :
    2 * (generate_edges M labels false).length =
      labels.length * (labels.length - 1) := by
  rw [generate_edges_undirected_complete hsort hzero hnz, List.length_flatMap]
  simp only [Function.comp_def]
  have hmap : labels.map (fun v => ((labels.filter
        (fun u => decide (v < u))).map (fun u => (M u v, v, u))).length) =
      labels.map (fun v => (labels.filter (fun u => decide (v < u))).length) := by
    apply List.map_congr_left
    intro v _
    rw [List.length_map]
  rw [hmap]
  exact pairs_len_sum labels hsort

theorem generate_edges_undirected_mem {M : ℕ → ℕ → ℚ} {labels : List ℕ}
    (hsort : labels.Sorted (· < ·))
    (hzero : ∀ v ∈ labels, M v v = 0)
    (hnz : ∀ u ∈ labels, ∀ v ∈ labels, u ≠ v → M u v ≠ 0) {e : Edge} :
    e ∈ generate_edges M labels false ↔
      ∃ v ∈ labels, ∃ u ∈ labels, v < u ∧ e = (M u v, v, u) := by
  rw [generate_edges_undirected_complete hsort hzero hnz, List.mem_flatMap]
  constructor
  · rintro ⟨v, hv, he⟩
    obtain ⟨u, hu, rfl⟩ := List.mem_map.1 he
    have hf := List.mem_filter.1 hu
    exact ⟨v, hv, u, hf.1, by simpa using hf.2, rfl⟩
  · rintro ⟨v, hv, u, hu, hvu, rfl⟩
    exact ⟨v, hv, List.mem_map.2
      ⟨u, List.mem_filter.2 ⟨hu, by simpa using hvu⟩, rfl⟩⟩

/-- Claim C7 (amended): over ascending labels with zero diagonal and all
off-diagonal entries non-zero, directed enumeration emits exactly one edge
per non-zero matrix entry — `n² - n` items in total — and undirected
enumeration (the drop-the-first-`i`-entries windowing trick) emits each
unordered pair of distinct vertices exactly once, with
`2 · count = n · (n - 1)`.  For unsorted labels or zero off-diagonal entries
the windowing trick duplicates or drops pairs — see the counterexample. -/
theorem c7_edge_enumeration (M : ℕ → ℕ → ℚ) (labels : List ℕ)
    (hsort : labels.Sorted (· < ·))
    (hzero : ∀ v ∈ labels, M v v = 0)
    (hnz : ∀ u ∈ labels, ∀ v ∈ labels, u ≠ v → M u v ≠ 0) :
    ((generate_edges M labels true).Nodup ∧
      (∀ e, e ∈ generate_edges M labels true ↔
        ∃ v ∈ labels, ∃ d ∈ labels, d ≠ v ∧ e = (M d v, v, d)) ∧
      (generate_edges M labels true).length =
        labels.length * labels.length - labels.length) ∧
    (generate_edges M labels false).Nodup ∧
    (∀ e, e ∈ generate_edges M labels false ↔
      ∃ v ∈ labels, ∃ u ∈ labels, v < u ∧ e = (M u v, v, u)) ∧
    2 * (generate_edges M labels false).length =
      labels.length * (labels.length - 1) := by
  have hnodup := sorted_lt_nodup hsort
  refine ⟨⟨generate_edges_nodup hnodup, ?_,
      generate_edges_directed_length hsort hzero hnz⟩,
    generate_edges_nodup hnodup,
    fun e => generate_edges_undirected_mem hsort hzero hnz,
    generate_edges_undirected_length hsort hzero hnz⟩
  intro e
  rw [generate_edges_directed_mem hnodup]
  constructor
  · rintro ⟨v, hv, d, hd, hz, rfl⟩
    refine ⟨v, hv, d, hd, ?_, rfl⟩
    intro hdv
    exact hz (by rw [hdv]; exact hzero v hv)
  · rintro ⟨v, hv, d, hd, hdv, rfl⟩
    exact ⟨v, hv, d, hd, hnz d hd v hv hdv, rfl⟩

/-- Witness for the amended claim C7 on the sorted two-label path matrix. -/
theorem c7_edge_enumeration_witness :
    ([0, 1] : List ℕ).Sorted (· < ·) ∧
      (∀ v ∈ ([0, 1] : List ℕ), mPath2 v v = 0) ∧
      (∀ u ∈ ([0, 1] : List ℕ), ∀ v ∈ ([0, 1] : List ℕ),
        u ≠ v → mPath2 u v ≠ 0) ∧
      (((generate_edges mPath2 [0, 1] true).Nodup ∧
        (∀ e, e ∈ generate_edges mPath2 [0, 1] true ↔
          ∃ v ∈ ([0, 1] : List ℕ), ∃ d ∈ ([0, 1] : List ℕ),
            d ≠ v ∧ e = (mPath2 d v, v, d)) ∧
        (generate_edges mPath2 [0, 1] true).length =
          ([0, 1] : List ℕ).length * ([0, 1] : List ℕ).length -
            ([0, 1] : List ℕ).length) ∧
      (generate_edges mPath2 [0, 1] false).Nodup ∧
      (∀ e, e ∈ generate_edges mPath2 [0, 1] false ↔
        ∃ v ∈ ([0, 1] : List ℕ), ∃ u ∈ ([0, 1] : List ℕ),
          v < u ∧ e = (mPath2 u v, v, u)) ∧
      2 * (generate_edges mPath2 [0, 1] false).length =
        ([0, 1] : List ℕ).length * (([0, 1] : List ℕ).length - 1)) :=
  ⟨by decide, by with_unfolding_all decide, by with_unfolding_all decide,
    c7_edge_enumeration mPath2 [0, 1] (by decide)
      (by with_unfolding_all decide) (by with_unfolding_all decide)⟩

/-- Counterexample to claim C7 as stated: the undirected windowing trick is
not a generic de-duplication.  On a connected matrix with one zero
off-diagonal entry, it drops the unordered pair `{1, 2}` entirely even
though `M 1 2 ≠ 0`; and on matrix-label order `[1, 0]` (not ascending) it
emits the pair `{0, 1}` twice plus a self pair, exceeding the claimed
`n(n-1)/2` bound. -/
theorem c7_counterexample :
    (generate_edges mLostEdge [0, 1, 2] false = [(1, 0, 2)] ∧
      mLostEdge 1 2 ≠ 0 ∧
      ∀ e ∈ generate_edges mLostEdge [0, 1, 2] false,
        ¬((e.2.1 = 1 ∧ e.2.2 = 2) ∨ (e.2.1 = 2 ∧ e.2.2 = 1))) ∧
    (generate_edges mUnsorted [1, 0] false =
        [(1, 1, 0), (9, 1, 1), (3, 0, 1)] ∧
      (generate_edges mUnsorted [1, 0] false).length >
        ([1, 0] : List ℕ).length * (([1, 0] : List ℕ).length - 1) / 2) := by
  with_unfolding_all decide

theorem findRoot_rootD {V : Finset ℕ} {parents ranks : ℕ → ℕ}
    (hinv : parentsInv V parents ranks) (v : ℕ) :
    findRoot parents (V.card + 1) v =
      some (rootD parents (V.card + 1) v) := by
  obtain ⟨h1, _, _, _, _⟩ := rootD_spec hinv v
  simp only [findRoot, h1, Option.map_some']

theorem union_eq_on_roots {parents ranks : ℕ → ℕ} {fuel a b ra rb : ℕ}
    (hfa : findRoot parents fuel a = some ra)
    (hfb : findRoot parents fuel b = some rb) :
    union parents ranks fuel a b =
      (if ra = rb then some (parents, ranks)
       else
        let p := if ranks ra < ranks rb then (rb, ra) else (ra, rb)
        some (Function.update parents p.2 p.1,
          if ranks p.1 = ranks p.2 then
            Function.update ranks p.1 (ranks p.1 + 1)
          else ranks)) := by
  unfold union
  rw [hfa, hfb]

theorem union_noop {V : Finset ℕ} {parents ranks : ℕ → ℕ}
    (hinv : parentsInv V parents ranks) {a b : ℕ}
    (h : rootD parents (V.card + 1) a = rootD parents (V.card + 1) b) :
    union parents ranks (V.card + 1) a b = some (parents, ranks) := by
  rw [union_eq_on_roots (findRoot_rootD hinv a) (findRoot_rootD hinv b),
    if_pos h]

theorem union_rootD {V : Finset ℕ} {parents ranks : ℕ → ℕ}
    (hinv : parentsInv V parents ranks) {a b : ℕ}
    (haV : a ∈ V) (hbV : b ∈ V) :
    ∃ p' r', union parents ranks (V.card + 1) a b = some (p', r') ∧
      parentsInv V p' r' ∧
      rootD p' (V.card + 1) a = rootD p' (V.card + 1) b ∧
      ∀ u w : ℕ,
        rootD parents (V.card + 1) u = rootD parents (V.card + 1) w →
        rootD p' (V.card + 1) u = rootD p' (V.card + 1) w := by
  obtain ⟨h1a, h2a, h3a, h4a, h5a⟩ := rootD_spec hinv a
  obtain ⟨h1b, h2b, h3b, h4b, h5b⟩ := rootD_spec hinv b
  by_cases heq : rootD parents (V.card + 1) a = rootD parents (V.card + 1) b
  · exact ⟨parents, ranks, union_noop hinv heq, hinv, heq, fun u w h => h⟩
  · obtain ⟨lo, hi, hcase, hlo, hhi, hne, hloV, hhiV, hun, hinv'⟩ :=
      union_attach hinv (h4a haV) (h4b hbV) h2a h2b heq
    have hswap : union parents ranks (V.card + 1) a b =
        union parents ranks (V.card + 1) (rootD parents (V.card + 1) a)
          (rootD parents (V.card + 1) b) := by
      rw [union_eq_on_roots (findRoot_rootD hinv a) (findRoot_rootD hinv b),
        union_eq_on_roots (findRoot_of_root h2a V.card)
          (findRoot_of_root h2b V.card)]
    have hrupd := rootD_update_eq hinv hinv' hlo hhi hne
    refine ⟨_, _, hswap.trans hun, hinv', ?_, ?_⟩
    · rw [hrupd a, hrupd b]
      rcases hcase with ⟨hl, hh⟩ | ⟨hl, hh⟩
      · rw [hl, hh, if_pos rfl, if_neg (fun hc => heq hc.symm)]
      · rw [hl, hh, if_neg heq, if_pos rfl]
    · intro u w h
      rw [hrupd u, hrupd w, h]

theorem ufChain {V : Finset ℕ} :
    ∀ (vs : List ℕ) (parents ranks : ℕ → ℕ),
      parentsInv V parents ranks → (∀ v ∈ vs, v ∈ V) →
      ∃ p' r',
        ufRun (V.card + 1) (vs.zip vs.tail) parents ranks = some (p', r') ∧
        parentsInv V p' r' ∧
        (∀ x y, rootD parents (V.card + 1) x = rootD parents (V.card + 1) y →
          rootD p' (V.card + 1) x = rootD p' (V.card + 1) y) ∧
        ∀ u ∈ vs, ∀ w ∈ vs,
          rootD p' (V.card + 1) u = rootD p' (V.card + 1) w := by
  intro vs
  induction vs with
  | nil =>
    intro parents ranks hinv _
    exact ⟨parents, ranks, rfl, hinv, fun x y h => h,
      fun u hu => absurd hu (List.not_mem_nil u)⟩
  | cons v vs' ih =>
    intro parents ranks hinv hmem
    cases vs' with
    | nil =>
      refine ⟨parents, ranks, rfl, hinv, fun x y h => h, ?_⟩
      intro u hu w hw
      rw [List.mem_singleton] at hu hw
      rw [hu, hw]
    | cons w rest =>
      have hvV : v ∈ V := hmem v (List.mem_cons_self _ _)
      have hwV : w ∈ V :=
        hmem w (List.mem_cons_of_mem _ (List.mem_cons_self _ _))
      obtain ⟨p1, r1, hun, hinv1, heqvw, hpres1⟩ := union_rootD hinv hvV hwV
      obtain ⟨p', r', hrun, hinv', hpres2, hall⟩ :=
        ih p1 r1 hinv1 (fun u hu => hmem u (List.mem_cons_of_mem _ hu))
      refine ⟨p', r', ?_, hinv',
        fun x y h => hpres2 x y (hpres1 x y h), ?_⟩
      · show ufRun (V.card + 1) ((v, w) :: (w :: rest).zip rest)
          parents ranks = some (p', r')
        simp only [ufRun]
        rw [hun]
        exact hrun
      · have hroot : ∀ u ∈ (v :: w :: rest : List ℕ),
            rootD p' (V.card + 1) u = rootD p' (V.card + 1) w := by
          intro u hu
          rcases List.mem_cons.1 hu with rfl | hu'
          · exact hpres2 _ _ heqvw
          · exact hall u hu' w (List.mem_cons_self _ _)
        intro u hu z hz
        rw [hroot u hu, hroot z hz]

/-- Claim C6: for the disjoint-set state of `kruskal_mst` (every vertex its
own root of rank 0, or any state reachable from it): after `__union(a, b)`
the two `__findset` roots agree; repeating the union (or calling it on two
vertices already sharing a root) returns the parents and ranks dicts
unchanged; and a chain of unions along any vertex list leaves every vertex
of the list with one common `__findset` root. -/
theorem c6_union_find (V : Finset ℕ) (parents ranks : ℕ → ℕ)
    (hinv : parentsInv V parents ranks) (a b : ℕ)
    (haV : a ∈ V) (hbV : b ∈ V) :
    (∃ p' r', union parents ranks (V.card + 1) a b = some (p', r') ∧
      findRoot p' (V.card + 1) a = findRoot p' (V.card + 1) b ∧
      (findRoot p' (V.card + 1) a).isSome = true ∧
      union p' r' (V.card + 1) a b = some (p', r')) ∧
    (findRoot parents (V.card + 1) a = findRoot parents (V.card + 1) b →
      union parents ranks (V.card + 1) a b = some (parents, ranks)) ∧
    ∀ vs : List ℕ, (∀ v ∈ vs, v ∈ V) →
      ∃ p' r',
        ufRun (V.card + 1) (vs.zip vs.tail) parents ranks = some (p', r') ∧
        ∃ root, ∀ u ∈ vs, findRoot p' (V.card + 1) u = some root := by
  obtain ⟨p1, r1, hun, hinv1, heqab, hpres⟩ := union_rootD hinv haV hbV
  refine ⟨⟨p1, r1, hun, ?_, ?_, union_noop hinv1 heqab⟩, ?_, ?_⟩
  · rw [findRoot_rootD hinv1 a, findRoot_rootD hinv1 b, heqab]
  · rw [findRoot_rootD hinv1 a]
    rfl
  · intro hfr
    apply union_noop hinv
    rw [findRoot_rootD hinv a, findRoot_rootD hinv b] at hfr
    exact Option.some_injective _ hfr
  · intro vs hvs
    obtain ⟨p', r', hrun, hinv', _, hall⟩ := ufChain vs parents ranks hinv hvs
    refine ⟨p', r', hrun, ?_⟩
    cases vs with
    | nil => exact ⟨0, fun u hu => absurd hu (List.not_mem_nil u)⟩
    | cons u0 us =>
      refine ⟨rootD p' (V.card + 1) u0, ?_⟩
      intro u hu
      rw [findRoot_rootD hinv' u, hall u hu u0 (List.mem_cons_self _ _)]

/-- Witness for claim C6 on the three-vertex set with the freshly
initialized identity parents map and all-zero ranks. -/
theorem c6_union_find_witness :
    parentsInv ({0, 1, 2} : Finset ℕ) (fun v => v) (fun _ => 0) ∧
      (0 : ℕ) ∈ ({0, 1, 2} : Finset ℕ) ∧ (1 : ℕ) ∈ ({0, 1, 2} : Finset ℕ) ∧
      ((∃ p' r', union (fun v => v) (fun _ => 0)
            (Finset.card ({0, 1, 2} : Finset ℕ) + 1) 0 1 = some (p', r') ∧
          findRoot p' (Finset.card ({0, 1, 2} : Finset ℕ) + 1) 0 =
            findRoot p' (Finset.card ({0, 1, 2} : Finset ℕ) + 1) 1 ∧
          (findRoot p' (Finset.card ({0, 1, 2} : Finset ℕ) + 1) 0).isSome
            = true ∧
          union p' r' (Finset.card ({0, 1, 2} : Finset ℕ) + 1) 0 1 =
            some (p', r')) ∧
        (findRoot (fun v => v) (Finset.card ({0, 1, 2} : Finset ℕ) + 1) 0 =
            findRoot (fun v => v)
              (Finset.card ({0, 1, 2} : Finset ℕ) + 1) 1 →
          union (fun v => v) (fun _ => 0)
              (Finset.card ({0, 1, 2} : Finset ℕ) + 1) 0 1 =
            some ((fun v => v), (fun _ => 0))) ∧
        ∀ vs : List ℕ, (∀ v ∈ vs, v ∈ ({0, 1, 2} : Finset ℕ)) →
          ∃ p' r',
            ufRun (Finset.card ({0, 1, 2} : Finset ℕ) + 1) (vs.zip vs.tail)
              (fun v => v) (fun _ => 0) = some (p', r') ∧
            ∃ root, ∀ u ∈ vs,
              findRoot p' (Finset.card ({0, 1, 2} : Finset ℕ) + 1) u =
                some root) :=
  ⟨⟨fun v hv => hv, fun v _ => rfl, fun v hv => absurd rfl hv⟩,
    by decide, by decide,
    c6_union_find {0, 1, 2} (fun v => v) (fun _ => 0)
      ⟨fun v hv => hv, fun v _ => rfl, fun v hv => absurd rfl hv⟩
      0 1 (by decide) (by decide)⟩
